import Mathlib

/-!
Verification development for the uniswap-sdk core: the UniversalRouter
command codec (`universal_router.py`), the v3 pool pricing primitives
(`v3.py`), the route utilities (`utils.py`) and the routing solver
(`solver.py`), shallowly embedded in Lean.

Conventions of the embedding:
* Python byte strings are `List Nat` with entries below 256.
* Python `Decimal` arithmetic is modelled as exact rational arithmetic
  (`ℚ`); `Decimal.sqrt`, which is context-rounded, is kept abstract as a
  function parameter where it occurs.
* Python `int(...)` truncation toward zero on a `Decimal` is `pyInt`.
* Functions that can raise return `Except`/`Option`; a `none`/`.error`
  result models the raised exception.
-/

set_option maxRecDepth 8000

namespace UniswapSDK

/-! ### Byte-level primitives

ABI words are 32-byte big-endian unsigned integers (`eth_abi` packing of
the `uintN`/`address`/`bool` families). -/

/-- Big-endian byte string of fixed width `k` for the natural number `n`
(the low `8 * k` bits of `n`). -/
def natToBytesBE : Nat → Nat → List Nat
  | 0, _ => []
  | k + 1, n => natToBytesBE k (n / 256) ++ [n % 256]

/-- Read a big-endian byte string back as a natural number. -/
def bytesToNatBE (bs : List Nat) : Nat :=
  bs.foldl (fun acc b => 256 * acc + b) 0

/-- A 32-byte ABI word. -/
def word32 (n : Nat) : List Nat := natToBytesBE 32 n

theorem natToBytesBE_length : ∀ (k n : Nat), (natToBytesBE k n).length = k := by
  intro k
  induction k with
  | zero => intro n; rfl
  | succ k ih =>
    intro n
    simp [natToBytesBE, ih]

theorem bytesToNatBE_append_single (bs : List Nat) (b : Nat) :
    bytesToNatBE (bs ++ [b]) = 256 * bytesToNatBE bs + b := by
  simp [bytesToNatBE, List.foldl_append]

theorem bytesToNatBE_natToBytesBE : ∀ (k n : Nat),
    bytesToNatBE (natToBytesBE k n) = n % 256 ^ k := by
  intro k
  induction k with
  | zero => intro n; simp [natToBytesBE, bytesToNatBE, Nat.mod_one]
  | succ k ih =>
    intro n
    rw [natToBytesBE, bytesToNatBE_append_single, ih, pow_succ', Nat.mod_mul]
    ring

theorem word32_length (n : Nat) : (word32 n).length = 32 :=
  natToBytesBE_length 32 n

theorem pow256_32 : (256 : Nat) ^ 32 = 2 ^ 256 := by norm_num

theorem bytesToNatBE_word32 {n : Nat} (h : n < 2 ^ 256) :
    bytesToNatBE (word32 n) = n := by
  rw [word32, bytesToNatBE_natToBytesBE, Nat.mod_eq_of_lt]
  rw [pow256_32]
  exact h

/-! ### Slices of a byte buffer

The ABI decoder reads a buffer at explicit positions; `slice d p n` is
the at-most-`n`-byte window of `d` starting at position `p`. -/

/-- The window of `d` of length (at most) `n` starting at position `p`. -/
def slice (d : List Nat) (p n : Nat) : List Nat := (d.drop p).take n

theorem slice_length (d : List Nat) (p n : Nat) :
    (slice d p n).length = min n (d.length - p) := by
  simp [slice]

theorem slice_add (d : List Nat) (p m n : Nat) :
    slice d p (m + n) = slice d p m ++ slice d (p + m) n := by
  simp only [slice]
  rw [List.take_add, List.drop_drop]

/-- Splitting a slice equation along an append. -/
theorem slice_eq_append {d xs ys : List Nat} {p : Nat}
    (h : slice d p (xs.length + ys.length) = xs ++ ys) :
    slice d p xs.length = xs ∧ slice d (p + xs.length) ys.length = ys := by
  rw [slice_add] at h
  have hlen : (slice d p xs.length).length = xs.length := by
    have h1 : (slice d p (xs.length + ys.length)).length = xs.length + ys.length := by
      rw [slice_add, h]
      simp
    rw [slice_length] at h1 ⊢
    omega
  exact List.append_inj h hlen

/-- Splitting a slice equation along an append, with the window length
given through a side equation. -/
theorem slice_eq_append2 {d xs ys : List Nat} {p n : Nat}
    (hn : n = xs.length + ys.length) (h : slice d p n = xs ++ ys) :
    slice d p xs.length = xs ∧ slice d (p + xs.length) ys.length = ys := by
  subst hn
  exact slice_eq_append h

/-- A full-length slice equation forces the buffer to extend past the window. -/
theorem slice_eq_le {d s : List Nat} {p : Nat} (h : slice d p s.length = s) :
    p + s.length ≤ d.length ∨ s = [] := by
  by_cases hs : s = []
  · right; exact hs
  · left
    have h1 : (slice d p s.length).length = s.length := by rw [h]
    rw [slice_length] at h1
    have : s.length ≠ 0 := by
      intro hc; exact hs (List.eq_nil_of_length_eq_zero hc)
    omega

/-- Reading one ABI word at position `p`; fails when fewer than 32 bytes
remain (the strict stream read of `eth_abi`). -/
def readWord (d : List Nat) (p : Nat) : Option Nat :=
  if p + 32 ≤ d.length then some (bytesToNatBE (slice d p 32)) else none

theorem readWord_of_slice {d : List Nat} {p k : Nat}
    (h : slice d p 32 = word32 k) (hk : k < 2 ^ 256) :
    readWord d p = some k := by
  have hle : p + 32 ≤ d.length := by
    have h1 : (slice d p 32).length = 32 := by rw [h, word32_length]
    rw [slice_length] at h1
    omega
  rw [readWord, if_pos hle, h, bytesToNatBE_word32 hk]

theorem readWord_length_le {d : List Nat} {p k : Nat}
    (h : readWord d p = some k) : p + 32 ≤ d.length := by
  by_cases hle : p + 32 ≤ d.length
  · exact hle
  · rw [readWord, if_neg hle] at h
    exact absurd h (by simp)

/-! ### ABI argument types

Each `Command` subclass in `universal_router.py` fixes an ordered list of
typed arguments (`definition : ClassVar`).  The canonical types appearing
in those lists are single-word types (`uint256`, `uint160`, `uint48`,
`address`, `bool`), dynamic byte strings (`bytes`), `address[]`,
static tuples of single-word fields, arrays of such tuples (`tuple[]`),
and `bytes[]`. -/

/-- A single-word (32-byte) ABI type. -/
inductive WType
  | u256
  | u160
  | u48
  | addressT
  | boolT
deriving DecidableEq, Repr

/-- Exclusive upper bound of the values of a single-word type
(`eth_abi` rejects out-of-range words on decode). -/
def WType.bound : WType → Nat
  | .u256 => 2 ^ 256
  | .u160 => 2 ^ 160
  | .u48 => 2 ^ 48
  | .addressT => 2 ^ 160
  | .boolT => 2

theorem WType.bound_le (w : WType) : w.bound ≤ 2 ^ 256 := by
  cases w <;> norm_num [WType.bound]

theorem WType.bound_pos (w : WType) : 0 < w.bound := by
  cases w <;> norm_num [WType.bound]

/-- The ABI type grammar covering every argument list in the command
table of `universal_router.py`. -/
inductive AbiType
  | word (w : WType)
  | bytesT
  | addrArray
  | tupleS (ws : List WType)
  | tupleArray (ws : List WType)
  | bytesArray
deriving DecidableEq, Repr

/-- Decoded ABI values (the shapes produced by `eth_abi.decode` for the
types above). -/
inductive AbiValue
  | word (n : Nat)
  | bytesV (bs : List Nat)
  | wordArr (ns : List Nat)
  | tupleV (ns : List Nat)
  | tupleArr (rows : List (List Nat))
  | bytesArr (bss : List (List Nat))
deriving DecidableEq, Repr

/-- A value list matching a static-tuple field list: same length, every
word within its field type bound. -/
def wordsValid : List WType → List Nat → Bool
  | [], [] => true
  | w :: ws, n :: ns => decide (n < w.bound) && wordsValid ws ns
  | _, _ => false

/-- A value matches an ABI type ("args matching the definition"). -/
def abiValid : AbiType → AbiValue → Bool
  | .word w, .word n => n < w.bound
  | .bytesT, .bytesV bs => bs.all fun b => b < 256
  | .addrArray, .wordArr ns => ns.all fun n => n < WType.addressT.bound
  | .tupleS ws, .tupleV ns => wordsValid ws ns
  | .tupleArray ws, .tupleArr rows => rows.all (wordsValid ws)
  | .bytesArray, .bytesArr bss => bss.all fun bs => bs.all fun b => b < 256
  | _, _ => false

/-- Whether the type uses head/tail (dynamic) encoding. -/
def AbiType.isDynamic : AbiType → Bool
  | .word _ => false
  | .tupleS _ => false
  | _ => true

/-- Size in bytes of the head slot of the type: the inline static
encoding for static types, one offset word for dynamic types. -/
def AbiType.headSize : AbiType → Nat
  | .tupleS ws => 32 * ws.length
  | _ => 32

theorem AbiType.headSize_pos (t : AbiType) (h : t.isDynamic = true) :
    t.headSize = 32 := by
  cases t <;> simp_all [AbiType.isDynamic, AbiType.headSize]

/-- Total head size of an argument type list. -/
def headSizeSum (ts : List AbiType) : Nat := (ts.map AbiType.headSize).sum

/-! ### ABI encoding (`eth_abi.encode` on the command type lists) -/

/-- Number of zero bytes padding a `bytes` payload to a 32-byte boundary. -/
def padLen (n : Nat) : Nat := (32 - n % 32) % 32

/-- Inline encoding of a word sequence (static tuple body, `address[]`
element area, one `tuple[]` row). -/
def encWords (ns : List Nat) : List Nat := (ns.map word32).flatten

/-- Tail encoding of one `bytes` value: length word, payload, padding. -/
def encBytesTail (bs : List Nat) : List Nat :=
  word32 bs.length ++ bs ++ List.replicate (padLen bs.length) 0

/-- Head (element offset words) and tail areas of a `bytes[]` data frame;
`off` is the running offset of the next tail, relative to the frame
start (the byte after the array length word). -/
def bytesFrameParts : List (List Nat) → Nat → List Nat × List Nat
  | [], _ => ([], [])
  | bs :: rest, off =>
    let tl := encBytesTail bs
    let pr := bytesFrameParts rest (off + tl.length)
    (word32 off ++ pr.1, tl ++ pr.2)

/-- Tail encoding of a dynamic value (valid type/value pairs only). -/
def encTail : AbiType → AbiValue → List Nat
  | .bytesT, .bytesV bs => encBytesTail bs
  | .addrArray, .wordArr ns => word32 ns.length ++ encWords ns
  | .tupleArray _, .tupleArr rows => word32 rows.length ++ (rows.map encWords).flatten
  | .bytesArray, .bytesArr bss =>
    let pr := bytesFrameParts bss (32 * bss.length)
    word32 bss.length ++ pr.1 ++ pr.2
  | _, _ => []

/-- Head (inline static) encoding of a static value. -/
def encStatic : AbiType → AbiValue → List Nat
  | .word _, .word n => word32 n
  | .tupleS _, .tupleV ns => encWords ns
  | _, _ => []

/-- Head and tail areas of an argument sequence; `off` is the running
offset of the next tail from the start of the encoding (initially the
total head size). -/
def encParts : List (AbiType × AbiValue) → Nat → List Nat × List Nat
  | [], _ => ([], [])
  | (t, v) :: rest, off =>
    if t.isDynamic then
      let tl := encTail t v
      let pr := encParts rest (off + tl.length)
      (word32 off ++ pr.1, tl ++ pr.2)
    else
      let pr := encParts rest off
      (encStatic t v ++ pr.1, pr.2)

/-- ABI encoding of an argument list against a type list
(`Command.encode_args`: `abi_encode(arg_types, converted_args)`). -/
def encodeArgs (ts : List AbiType) (vs : List AbiValue) : List Nat :=
  let pr := encParts (List.zip ts vs) (headSizeSum ts)
  pr.1 ++ pr.2

/-! ### ABI decoding (`eth_abi.decode(types, calldata, strict=False)`)

Word reads are strict 32-byte stream reads; only the payload of a
`bytes` value is read non-strictly (`strict=False` takes the bytes that
remain when the buffer is short). -/

/-- Decode one word of the given single-word type, validating its range. -/
def decodeWType (d : List Nat) (p : Nat) (w : WType) : Option Nat := do
  let n ← readWord d p
  if n < w.bound then some n else none

/-- Decode consecutive words against a field list. -/
def decodeWords (d : List Nat) : Nat → List WType → Option (List Nat)
  | _, [] => some []
  | p, w :: ws => do
    let n ← decodeWType d p w
    let ns ← decodeWords d (p + 32) ws
    some (n :: ns)

/-- Decode `count` consecutive static tuple rows. -/
def decodeRows (d : List Nat) (ws : List WType) : Nat → Nat → Option (List (List Nat))
  | _, 0 => some []
  | p, count + 1 => do
    let row ← decodeWords d p ws
    let rows ← decodeRows d ws (p + 32 * ws.length) count
    some (row :: rows)

/-- Decode one `bytes` tail at absolute offset `off`: strict length word,
then the (non-strict) payload read. -/
def decodeBytesTail (d : List Nat) (off : Nat) : Option (List Nat) := do
  let n ← readWord d off
  some (slice d (off + 32) n)

/-- Decode `count` `bytes` elements of a `bytes[]` frame based at `base`;
`i` is the index of the next element offset word. -/
def decodeBytesElems (d : List Nat) (base : Nat) : Nat → Nat → Option (List (List Nat))
  | 0, _ => some []
  | count + 1, i => do
    let rel ← readWord d (base + 32 * i)
    let bs ← decodeBytesTail d (base + rel)
    let rest ← decodeBytesElems d base count (i + 1)
    some (bs :: rest)

/-- Decode the tail of a dynamic type at absolute offset `off`. -/
def decodeTail (d : List Nat) : AbiType → Nat → Option AbiValue
  | .bytesT, off => do
    let bs ← decodeBytesTail d off
    some (.bytesV bs)
  | .addrArray, off => do
    let n ← readWord d off
    let ns ← decodeWords d (off + 32) (List.replicate n .addressT)
    some (.wordArr ns)
  | .tupleArray ws, off => do
    let n ← readWord d off
    let rows ← decodeRows d ws (off + 32) n
    some (.tupleArr rows)
  | .bytesArray, off => do
    let n ← readWord d off
    let bss ← decodeBytesElems d (off + 32) n 0
    some (.bytesArr bss)
  | _, _ => none

/-- Decode the head slot of a static type at position `p`. -/
def decodeStatic (d : List Nat) : AbiType → Nat → Option AbiValue
  | .word w, p => do
    let n ← decodeWType d p w
    some (.word n)
  | .tupleS ws, p => do
    let ns ← decodeWords d p ws
    some (.tupleV ns)
  | _, _ => none

/-- Decode an argument sequence: heads in order from position `p`,
dynamic tails through their offset words. -/
def decodeSeq (d : List Nat) : List AbiType → Nat → Option (List AbiValue)
  | [], _ => some []
  | t :: ts, p => do
    let v ←
      if t.isDynamic then do
        let off ← readWord d p
        decodeTail d t off
      else decodeStatic d t p
    let vs ← decodeSeq d ts (p + t.headSize)
    some (v :: vs)

/-- ABI decoding of calldata against a type list
(`Command._decode_args`). -/
def decodeArgs (ts : List AbiType) (d : List Nat) : Option (List AbiValue) :=
  decodeSeq d ts 0

/-! ### Round-trip of the ABI codec -/

theorem encWords_length (ns : List Nat) : (encWords ns).length = 32 * ns.length := by
  induction ns with
  | nil => rfl
  | cons n ns ih =>
    have : encWords (n :: ns) = word32 n ++ encWords ns := by simp [encWords]
    rw [this]
    simp only [List.length_append, word32_length, ih, List.length_cons]
    ring

theorem wordsValid_length : ∀ {ws : List WType} {ns : List Nat},
    wordsValid ws ns = true → ns.length = ws.length := by
  intro ws
  induction ws with
  | nil =>
    intro ns h
    cases ns with
    | nil => rfl
    | cons n ns => exact absurd h (by simp [wordsValid])
  | cons w ws ih =>
    intro ns h
    cases ns with
    | nil => exact absurd h (by simp [wordsValid])
    | cons n ns =>
      rw [wordsValid, Bool.and_eq_true] at h
      simpa using ih h.2

theorem decodeWords_correct {d : List Nat} :
    ∀ (ws : List WType) (ns : List Nat) (p : Nat),
    wordsValid ws ns = true →
    slice d p (encWords ns).length = encWords ns →
    decodeWords d p ws = some ns := by
  intro ws
  induction ws with
  | nil =>
    intro ns p hv _
    have : ns = [] := List.eq_nil_of_length_eq_zero (wordsValid_length hv)
    subst this
    rfl
  | cons w ws ih =>
    intro ns p hv hs
    match ns with
    | [] => exact absurd (wordsValid_length hv) (by simp)
    | n :: ns =>
      rw [wordsValid, Bool.and_eq_true, decide_eq_true_eq] at hv
      have hsplit : encWords (n :: ns) = word32 n ++ encWords ns := by
        simp [encWords]
      rw [hsplit] at hs
      obtain ⟨hs1, hs2⟩ := slice_eq_append2 (by simp) hs
      rw [word32_length] at hs1 hs2
      have hread : readWord d p = some n :=
        readWord_of_slice hs1 (lt_of_lt_of_le hv.1 w.bound_le)
      have hdt : decodeWType d p w = some n := by
        rw [decodeWType, hread]
        simp [hv.1]
      have hrec := ih ns (p + 32) hv.2 hs2
      simp only [decodeWords, hdt, hrec, Option.bind_eq_bind, Option.some_bind]

theorem decodeWords_le {d : List Nat} :
    ∀ (ws : List WType) (p : Nat) (ns : List Nat),
    decodeWords d p ws = some ns → ws ≠ [] → p + 32 * ws.length ≤ d.length := by
  intro ws
  induction ws with
  | nil => intro p ns _ hne; exact absurd rfl hne
  | cons w ws ih =>
    intro p ns h _
    rw [decodeWords] at h
    simp only [Option.bind_eq_bind, Option.bind_eq_some] at h
    obtain ⟨n, hn, ns2, hns, _⟩ := h
    have hrw : ∃ k, readWord d p = some k := by
      rw [decodeWType] at hn
      simp only [Option.bind_eq_bind, Option.bind_eq_some] at hn
      obtain ⟨k, hk, _⟩ := hn
      exact ⟨k, hk⟩
    obtain ⟨k, hk⟩ := hrw
    have h32 := readWord_length_le hk
    by_cases hne2 : ws = []
    · subst hne2; simpa using h32
    · have := ih (p + 32) ns2 hns hne2
      simp only [List.length_cons]
      omega

theorem decodeRows_correct {d : List Nat} {ws : List WType} :
    ∀ (rows : List (List Nat)) (p : Nat),
    rows.all (wordsValid ws) = true →
    slice d p ((rows.map encWords).flatten).length = (rows.map encWords).flatten →
    decodeRows d ws p rows.length = some rows := by
  intro rows
  induction rows with
  | nil => intro p _ _; rfl
  | cons row rows ih =>
    intro p hv hs
    simp only [List.all_cons, Bool.and_eq_true] at hv
    have hflat : ((row :: rows).map encWords).flatten
        = encWords row ++ (rows.map encWords).flatten := by simp
    rw [hflat] at hs
    obtain ⟨hs1, hs2⟩ := slice_eq_append2 (by simp) hs
    have hrow := decodeWords_correct ws row p hv.1 hs1
    rw [encWords_length, wordsValid_length hv.1] at hs2
    have hrec := ih (p + 32 * ws.length) hv.2 hs2
    simp only [List.length_cons, decodeRows, hrow, hrec, Option.bind_eq_bind,
      Option.some_bind]

theorem encBytesTail_length (bs : List Nat) :
    (encBytesTail bs).length = 32 + (bs.length + padLen bs.length) := by
  simp [encBytesTail, word32_length]

theorem decodeBytesTail_correct {d : List Nat} {off : Nat} {bs : List Nat}
    (hd : d.length < 2 ^ 256)
    (h : slice d off (encBytesTail bs).length = encBytesTail bs) :
    decodeBytesTail d off = some bs := by
  have hlen : bs.length < 2 ^ 256 := by
    rcases slice_eq_le h with hle | hnil
    · rw [encBytesTail_length] at hle
      omega
    · have hc := congrArg List.length hnil
      rw [encBytesTail_length] at hc
      simp at hc
  rw [encBytesTail] at h
  obtain ⟨h1, _⟩ := slice_eq_append2 (by simp <;> omega) h
  obtain ⟨h1a, h1b⟩ := slice_eq_append2 (by simp) h1
  rw [word32_length] at h1a h1b
  have hread : readWord d off = some bs.length := readWord_of_slice h1a hlen
  simp [decodeBytesTail, hread, h1b]

theorem bytesFrameParts_fst_length :
    ∀ (bss : List (List Nat)) (off : Nat),
    (bytesFrameParts bss off).1.length = 32 * bss.length := by
  intro bss
  induction bss with
  | nil => intro off; rfl
  | cons bs bss ih =>
    intro off
    simp only [bytesFrameParts, List.length_append, word32_length, ih, List.length_cons]
    ring

theorem decodeBytesElems_correct {d : List Nat} {base : Nat}
    (hd : d.length < 2 ^ 256) :
    ∀ (bss : List (List Nat)) (off i : Nat),
    slice d (base + 32 * i) (bytesFrameParts bss off).1.length = (bytesFrameParts bss off).1 →
    slice d (base + off) (bytesFrameParts bss off).2.length = (bytesFrameParts bss off).2 →
    decodeBytesElems d base bss.length i = some bss := by
  intro bss
  induction bss with
  | nil => intro off i _ _; rfl
  | cons bs bss ih =>
    intro off i hh ht
    simp only [bytesFrameParts] at hh ht
    obtain ⟨hh1, hh2⟩ := slice_eq_append2 (by simp) hh
    rw [word32_length] at hh1 hh2
    obtain ⟨ht1, ht2⟩ := slice_eq_append2 (by simp) ht
    have hoff : off < 2 ^ 256 := by
      rcases slice_eq_le ht1 with hle | hnil
      · omega
      · have hc := congrArg List.length hnil
        rw [encBytesTail_length] at hc
        simp at hc
    have hread : readWord d (base + 32 * i) = some off := readWord_of_slice hh1 hoff
    have htail : decodeBytesTail d (base + off) = some bs := decodeBytesTail_correct hd ht1
    have hh2e : slice d (base + 32 * (i + 1))
        (bytesFrameParts bss (off + (encBytesTail bs).length)).1.length
        = (bytesFrameParts bss (off + (encBytesTail bs).length)).1 := by
      rw [show base + 32 * (i + 1) = base + 32 * i + 32 by ring]
      exact hh2
    have ht2e : slice d (base + (off + (encBytesTail bs).length))
        (bytesFrameParts bss (off + (encBytesTail bs).length)).2.length
        = (bytesFrameParts bss (off + (encBytesTail bs).length)).2 := by
      rw [show base + (off + (encBytesTail bs).length)
          = base + off + (encBytesTail bs).length by ring]
      exact ht2
    have hrec := ih (off + (encBytesTail bs).length) (i + 1) hh2e ht2e
    simp only [List.length_cons, decodeBytesElems, hread, htail, hrec,
      Option.bind_eq_bind, Option.some_bind]

/-- The only degenerate type shape the codec lemmas must exclude: a
`tuple[]` whose element tuple has no fields (no command definition uses
one). -/
def tWellFormed : AbiType → Bool
  | .tupleArray ws => !ws.isEmpty
  | _ => true

theorem encStatic_length {t : AbiType} {v : AbiValue}
    (hst : t.isDynamic = false) (hv : abiValid t v = true) :
    (encStatic t v).length = t.headSize := by
  cases t with
  | word w =>
    cases v <;> simp_all [abiValid, encStatic, AbiType.headSize, word32_length]
  | tupleS ws =>
    cases v with
    | tupleV ns =>
      rw [abiValid] at hv
      simp [encStatic, AbiType.headSize, encWords_length, wordsValid_length hv]
    | word n => exact absurd hv (by simp [abiValid])
    | bytesV bs => exact absurd hv (by simp [abiValid])
    | wordArr ns => exact absurd hv (by simp [abiValid])
    | tupleArr rows => exact absurd hv (by simp [abiValid])
    | bytesArr bss => exact absurd hv (by simp [abiValid])
  | bytesT => simp [AbiType.isDynamic] at hst
  | addrArray => simp [AbiType.isDynamic] at hst
  | tupleArray ws => simp [AbiType.isDynamic] at hst
  | bytesArray => simp [AbiType.isDynamic] at hst

theorem encTail_length_pos {t : AbiType} {v : AbiValue}
    (hdyn : t.isDynamic = true) (hv : abiValid t v = true) :
    0 < (encTail t v).length := by
  cases t <;> cases v <;>
    simp_all [abiValid, AbiType.isDynamic, encTail, encBytesTail_length, word32_length]

theorem rowsFlatten_length {ws : List WType} :
    ∀ (rows : List (List Nat)), rows.all (wordsValid ws) = true →
    ((rows.map encWords).flatten).length = 32 * ws.length * rows.length := by
  intro rows
  induction rows with
  | nil => intro _; simp
  | cons row rows ih =>
    intro hv
    simp only [List.all_cons, Bool.and_eq_true] at hv
    have := ih hv.2
    simp only [List.map_cons, List.flatten_cons, List.length_append, this,
      encWords_length, wordsValid_length hv.1, List.length_cons]
    ring

theorem decodeStatic_correct {d : List Nat} {t : AbiType} {v : AbiValue} {p : Nat}
    (hst : t.isDynamic = false) (hv : abiValid t v = true)
    (h : slice d p (encStatic t v).length = encStatic t v) :
    decodeStatic d t p = some v := by
  cases t with
  | word w =>
    cases v with
    | word n =>
      rw [abiValid, decide_eq_true_eq] at hv
      rw [encStatic, word32_length] at h
      have hread : readWord d p = some n :=
        readWord_of_slice h (lt_of_lt_of_le hv w.bound_le)
      simp [decodeStatic, decodeWType, hread, hv]
    | bytesV bs => exact absurd hv (by simp [abiValid])
    | wordArr ns => exact absurd hv (by simp [abiValid])
    | tupleV ns => exact absurd hv (by simp [abiValid])
    | tupleArr rows => exact absurd hv (by simp [abiValid])
    | bytesArr bss => exact absurd hv (by simp [abiValid])
  | tupleS ws =>
    cases v with
    | tupleV ns =>
      rw [abiValid] at hv
      rw [encStatic] at h
      have := decodeWords_correct ws ns p hv h
      simp [decodeStatic, this]
    | word n => exact absurd hv (by simp [abiValid])
    | bytesV bs => exact absurd hv (by simp [abiValid])
    | wordArr ns => exact absurd hv (by simp [abiValid])
    | tupleArr rows => exact absurd hv (by simp [abiValid])
    | bytesArr bss => exact absurd hv (by simp [abiValid])
  | bytesT => simp [AbiType.isDynamic] at hst
  | addrArray => simp [AbiType.isDynamic] at hst
  | tupleArray ws => simp [AbiType.isDynamic] at hst
  | bytesArray => simp [AbiType.isDynamic] at hst

theorem wordsValid_replicate_addr :
    ∀ (ns : List Nat), (ns.all fun n => decide (n < WType.addressT.bound)) = true →
    wordsValid (List.replicate ns.length WType.addressT) ns = true := by
  intro ns
  induction ns with
  | nil => intro _; rfl
  | cons n ns ih =>
    intro hv
    simp only [List.all_cons, Bool.and_eq_true] at hv
    simp only [List.length_cons, List.replicate_succ, wordsValid, Bool.and_eq_true]
    exact ⟨hv.1, ih hv.2⟩

theorem two_pow_256_pos : 0 < 2 ^ 256 := by positivity

theorem decodeTail_correct {d : List Nat} {t : AbiType} {v : AbiValue} {off : Nat}
    (hd : d.length < 2 ^ 256) (hdyn : t.isDynamic = true)
    (hwf : tWellFormed t = true) (hv : abiValid t v = true)
    (h : slice d off (encTail t v).length = encTail t v) :
    decodeTail d t off = some v := by
  cases t with
  | word w => simp [AbiType.isDynamic] at hdyn
  | tupleS ws => simp [AbiType.isDynamic] at hdyn
  | bytesT =>
    cases v with
    | bytesV bs =>
      rw [encTail] at h
      have := decodeBytesTail_correct hd h
      simp [decodeTail, this]
    | word n => exact absurd hv (by simp [abiValid])
    | wordArr ns => exact absurd hv (by simp [abiValid])
    | tupleV ns => exact absurd hv (by simp [abiValid])
    | tupleArr rows => exact absurd hv (by simp [abiValid])
    | bytesArr bss => exact absurd hv (by simp [abiValid])
  | addrArray =>
    cases v with
    | wordArr ns =>
      rw [abiValid] at hv
      rw [encTail] at h
      obtain ⟨h1, h2⟩ := slice_eq_append2 (by simp) h
      have hlen : ns.length < 2 ^ 256 := by
        have hpos := two_pow_256_pos
        rcases slice_eq_le h2 with hle | hnil
        · rw [encWords_length] at hle
          omega
        · have hc := congrArg List.length hnil
          rw [encWords_length] at hc
          simp only [List.length_nil] at hc
          omega
      rw [word32_length] at h1 h2
      have hread : readWord d off = some ns.length := readWord_of_slice h1 hlen
      have hws := decodeWords_correct (List.replicate ns.length WType.addressT) ns
        (off + 32) (wordsValid_replicate_addr ns hv) h2
      simp [decodeTail, hread, hws]
    | word n => exact absurd hv (by simp [abiValid])
    | bytesV bs => exact absurd hv (by simp [abiValid])
    | tupleV ns => exact absurd hv (by simp [abiValid])
    | tupleArr rows => exact absurd hv (by simp [abiValid])
    | bytesArr bss => exact absurd hv (by simp [abiValid])
  | tupleArray ws =>
    cases v with
    | tupleArr rows =>
      rw [abiValid] at hv
      rw [tWellFormed] at hwf
      have hws : 0 < ws.length := by
        cases ws with
        | nil => simp at hwf
        | cons w ws => simp
      rw [encTail] at h
      obtain ⟨h1, h2⟩ := slice_eq_append2 (by simp) h
      have hflat := rowsFlatten_length rows hv
      have hlen : rows.length < 2 ^ 256 := by
        have hpos := two_pow_256_pos
        have hmul : rows.length ≤ 32 * ws.length * rows.length := by
          have h32 : 1 ≤ 32 * ws.length := by omega
          calc rows.length = 1 * rows.length := by ring
            _ ≤ 32 * ws.length * rows.length := Nat.mul_le_mul_right _ h32
        rcases slice_eq_le h2 with hle | hnil
        · rw [hflat] at hle
          omega
        · have hc := congrArg List.length hnil
          rw [hflat] at hc
          simp only [List.length_nil] at hc
          omega
      rw [word32_length] at h1 h2
      have hread : readWord d off = some rows.length := readWord_of_slice h1 hlen
      have hrows := decodeRows_correct rows (off + 32) hv h2
      simp [decodeTail, hread, hrows]
    | word n => exact absurd hv (by simp [abiValid])
    | bytesV bs => exact absurd hv (by simp [abiValid])
    | wordArr ns => exact absurd hv (by simp [abiValid])
    | tupleV ns => exact absurd hv (by simp [abiValid])
    | bytesArr bss => exact absurd hv (by simp [abiValid])
  | bytesArray =>
    cases v with
    | bytesArr bss =>
      rw [encTail] at h
      obtain ⟨h1, h2⟩ := slice_eq_append2 (by simp <;> omega) h
      obtain ⟨h1a, h1b⟩ := slice_eq_append2 (by simp) h1
      rw [word32_length] at h1a h1b
      have hfst := bytesFrameParts_fst_length bss (32 * bss.length)
      have hlen : bss.length < 2 ^ 256 := by
        have hpos := two_pow_256_pos
        rcases slice_eq_le h1b with hle | hnil
        · rw [hfst] at hle
          omega
        · have hc := congrArg List.length hnil
          rw [hfst] at hc
          simp only [List.length_nil] at hc
          omega
      have hread : readWord d off = some bss.length := readWord_of_slice h1a hlen
      have hh : slice d (off + 32 + 32 * 0)
          (bytesFrameParts bss (32 * bss.length)).1.length
          = (bytesFrameParts bss (32 * bss.length)).1 := by
        rw [show off + 32 + 32 * 0 = off + 32 by ring]
        exact h1b
      have ht : slice d (off + 32 + 32 * bss.length)
          (bytesFrameParts bss (32 * bss.length)).2.length
          = (bytesFrameParts bss (32 * bss.length)).2 := by
        have : off + 32 + 32 * bss.length
            = off + (word32 bss.length ++ (bytesFrameParts bss (32 * bss.length)).1).length := by
          simp [word32_length, hfst]
          omega
        rw [this]
        exact h2
      have helems := @decodeBytesElems_correct d (off + 32) hd bss (32 * bss.length) 0 hh ht
      simp [decodeTail, hread, helems]
    | word n => exact absurd hv (by simp [abiValid])
    | bytesV bs => exact absurd hv (by simp [abiValid])
    | wordArr ns => exact absurd hv (by simp [abiValid])
    | tupleV ns => exact absurd hv (by simp [abiValid])
    | tupleArr rows => exact absurd hv (by simp [abiValid])

theorem encParts_fst_length :
    ∀ (items : List (AbiType × AbiValue)) (off : Nat),
    (items.all fun it => abiValid it.1 it.2) = true →
    (encParts items off).1.length = headSizeSum (items.map Prod.fst) := by
  intro items
  induction items with
  | nil => intro off _; rfl
  | cons it rest ih =>
    obtain ⟨t, v⟩ := it
    intro off hv
    simp only [List.all_cons, Bool.and_eq_true] at hv
    by_cases hdyn : t.isDynamic = true
    · simp only [encParts, hdyn, if_true, List.map_cons, headSizeSum, List.length_append,
        word32_length, List.sum_cons]
      rw [show ((rest.map Prod.fst).map AbiType.headSize).sum
          = headSizeSum (rest.map Prod.fst) from rfl]
      rw [ih (off + (encTail t v).length) hv.2, AbiType.headSize_pos t hdyn]
    · rw [Bool.not_eq_true] at hdyn
      simp only [encParts, hdyn, Bool.false_eq_true, if_false, List.map_cons, headSizeSum,
        List.length_append, List.sum_cons]
      rw [show ((rest.map Prod.fst).map AbiType.headSize).sum
          = headSizeSum (rest.map Prod.fst) from rfl]
      rw [ih off hv.2, encStatic_length hdyn hv.1]

/-- Round-trip at the head/tail level: decoding the heads of an
encoded argument sequence out of any buffer that carries its heads at
`pos` and its tails at `off` recovers the values. -/
theorem decodeSeq_encParts {d : List Nat} (hd : d.length < 2 ^ 256) :
    ∀ (items : List (AbiType × AbiValue)) (pos off : Nat),
    (items.all fun it => abiValid it.1 it.2) = true →
    (items.all fun it => tWellFormed it.1) = true →
    slice d pos (encParts items off).1.length = (encParts items off).1 →
    slice d off (encParts items off).2.length = (encParts items off).2 →
    decodeSeq d (items.map Prod.fst) pos = some (items.map Prod.snd) := by
  intro items
  induction items with
  | nil => intro pos off _ _ _ _; rfl
  | cons it rest ih =>
    obtain ⟨t, v⟩ := it
    intro pos off hv hwf hh ht
    simp only [List.all_cons, Bool.and_eq_true] at hv hwf
    by_cases hdyn : t.isDynamic = true
    · simp only [encParts, hdyn, if_true] at hh ht
      obtain ⟨hh1, hh2⟩ := slice_eq_append2 (by simp) hh
      rw [word32_length] at hh1 hh2
      obtain ⟨ht1, ht2⟩ := slice_eq_append2 (by simp) ht
      have hoffb : off < 2 ^ 256 := by
        have hpos := two_pow_256_pos
        rcases slice_eq_le ht1 with hle | hnil
        · omega
        · have hc := congrArg List.length hnil
          have hp := encTail_length_pos hdyn hv.1
          simp only [List.length_nil] at hc
          omega
      have hread : readWord d pos = some off := readWord_of_slice hh1 hoffb
      have htl := decodeTail_correct hd hdyn hwf.1 hv.1 ht1
      have hrec := ih (pos + 32) (off + (encTail t v).length) hv.2 hwf.2 hh2 ht2
      simp only [List.map_cons, decodeSeq, hdyn, if_true, hread, htl, hrec,
        AbiType.headSize_pos t hdyn, Option.bind_eq_bind, Option.some_bind]
    · rw [Bool.not_eq_true] at hdyn
      simp only [encParts, hdyn, Bool.false_eq_true, if_false] at hh ht
      obtain ⟨hh1, hh2⟩ := slice_eq_append2 (by simp) hh
      have hst := decodeStatic_correct hdyn hv.1 hh1
      rw [encStatic_length hdyn hv.1] at hh2
      have hrec := ih (pos + t.headSize) off hv.2 hwf.2 hh2 ht
      simp only [List.map_cons, decodeSeq, hdyn, Bool.false_eq_true, if_false, hst, hrec,
        Option.bind_eq_bind, Option.some_bind]

/-- Round-trip of the ABI codec on an argument list: decoding an encoded
valid argument list against its type list recovers the arguments
(`abi_decode(types, abi_encode(types, args)) == args`). -/
theorem decodeArgs_encodeArgs {ts : List AbiType} {vs : List AbiValue}
    (hlen : ts.length = vs.length)
    (hv : ((List.zip ts vs).all fun it => abiValid it.1 it.2) = true)
    (hwf : ts.all tWellFormed = true)
    (hsize : (encodeArgs ts vs).length < 2 ^ 256) :
    decodeArgs ts (encodeArgs ts vs) = some vs := by
  have hmapf : (List.zip ts vs).map Prod.fst = ts :=
    List.map_fst_zip ts vs (le_of_eq hlen)
  have hmaps : (List.zip ts vs).map Prod.snd = vs :=
    List.map_snd_zip ts vs (le_of_eq hlen.symm)
  have hwf2 : ((List.zip ts vs).all fun it => tWellFormed it.1) = true := by
    rw [← hmapf] at hwf
    simpa [List.all_map] using hwf
  have hHlen : (encParts (List.zip ts vs) (headSizeSum ts)).1.length = headSizeSum ts := by
    rw [encParts_fst_length (List.zip ts vs) (headSizeSum ts) hv, hmapf]
  have hbuf : encodeArgs ts vs
      = (encParts (List.zip ts vs) (headSizeSum ts)).1
        ++ (encParts (List.zip ts vs) (headSizeSum ts)).2 := rfl
  have hH : slice (encodeArgs ts vs) 0
      (encParts (List.zip ts vs) (headSizeSum ts)).1.length
      = (encParts (List.zip ts vs) (headSizeSum ts)).1 := by
    rw [hbuf]
    simp [slice, List.take_left]
  have hT : slice (encodeArgs ts vs) ((encParts (List.zip ts vs) (headSizeSum ts)).1.length)
      (encParts (List.zip ts vs) (headSizeSum ts)).2.length
      = (encParts (List.zip ts vs) (headSizeSum ts)).2 := by
    rw [hbuf]
    simp [slice, List.drop_left]
  rw [hHlen] at hT
  have := @decodeSeq_encParts (encodeArgs ts vs) hsize (List.zip ts vs) 0
    (headSizeSum ts) hv hwf2 hH hT
  rw [hmapf, hmaps] at this
  rw [decodeArgs]
  exact this

/-- A successful decode of a word run needs the full 32 bytes per word. -/
theorem decodeWords_minlen {d : List Nat} :
    ∀ (ws : List WType) (p : Nat) (ns : List Nat),
    decodeWords d p ws = some ns → ws ≠ [] → p + 32 * ws.length ≤ d.length :=
  fun ws p ns h hne => decodeWords_le ws p ns h hne

/-- A successful argument decode needs at least the total head size of
the type list: every head slot is read with strict 32-byte word reads. -/
theorem decodeSeq_minlen {d : List Nat} :
    ∀ (ts : List AbiType) (p : Nat) (vs : List AbiValue),
    decodeSeq d ts p = some vs → ts ≠ [] →
    (ts.all fun t => t.headSize != 0) = true →
    p + headSizeSum ts ≤ d.length := by
  intro ts
  induction ts with
  | nil => intro p vs _ hne _; exact absurd rfl hne
  | cons t ts ih =>
    intro p vs h _ hpos
    simp only [List.all_cons, Bool.and_eq_true] at hpos
    have hstep : p + t.headSize ≤ d.length ∧
        ∃ vs2, decodeSeq d ts (p + t.headSize) = some vs2 := by
      by_cases hdyn : t.isDynamic = true
      · rw [decodeSeq, if_pos hdyn] at h
        simp only [Option.bind_eq_bind, Option.bind_eq_some] at h
        obtain ⟨off, hoff, v, _, vs2, hv2, _⟩ := h
        refine ⟨?_, vs2, hv2⟩
        rw [AbiType.headSize_pos t hdyn]
        exact readWord_length_le hoff
      · rw [decodeSeq, if_neg hdyn] at h
        simp only [Option.bind_eq_bind, Option.bind_eq_some] at h
        obtain ⟨v, hv1, vs2, hv2, _⟩ := h
        refine ⟨?_, vs2, hv2⟩
        rw [Bool.not_eq_true] at hdyn
        cases t with
        | word w =>
          rw [decodeStatic] at hv1
          simp only [Option.bind_eq_bind, Option.bind_eq_some] at hv1
          obtain ⟨n, hn, _⟩ := hv1
          rw [decodeWType] at hn
          simp only [Option.bind_eq_bind, Option.bind_eq_some] at hn
          obtain ⟨k, hk, _⟩ := hn
          exact readWord_length_le hk
        | tupleS ws =>
          rw [decodeStatic] at hv1
          simp only [Option.bind_eq_bind, Option.bind_eq_some] at hv1
          obtain ⟨ns, hns, _⟩ := hv1
          have hwsne : ws ≠ [] := by
            intro hc
            subst hc
            simp [AbiType.headSize] at hpos
          have := decodeWords_minlen ws p ns hns hwsne
          simpa [AbiType.headSize] using this
        | bytesT => simp [AbiType.isDynamic] at hdyn
        | addrArray => simp [AbiType.isDynamic] at hdyn
        | tupleArray ws => simp [AbiType.isDynamic] at hdyn
        | bytesArray => simp [AbiType.isDynamic] at hdyn
    obtain ⟨hhead, vs2, hv2⟩ := hstep
    by_cases hne2 : ts = []
    · subst hne2
      simpa [headSizeSum] using hhead
    · have := ih (p + t.headSize) vs2 hv2 hne2 hpos.2
      simp only [headSizeSum, List.map_cons, List.sum_cons] at this ⊢
      omega

/-! ### The UniversalRouter command table

One entry per `Command` subclass of `universal_router.py`, keyed by the
class `type` byte, carrying the class `definition` type list.  No
subclass overrides `is_revertible`, so it is `False` for every command.
-/

/-- Field list of the Permit2 `PermitDetails` tuple. -/
def permitDetailsFields : List WType := [.addressT, .u160, .u48, .u48]

/-- Field list of the `PERMIT2_TRANSFER_FROM_BATCH` batch tuple. -/
def transferBatchFields : List WType := [.addressT, .addressT, .u160, .addressT]

/-- The command table (`ALL_COMMANDS_BY_TYPE`): opcode byte to argument
definition, one entry per `Command` subclass. -/
def commandTable : List (Nat × List AbiType) :=
  [ (0x00, [.word .addressT, .word .u256, .word .u256, .bytesT, .word .boolT]),
    (0x01, [.word .addressT, .word .u256, .word .u256, .bytesT, .word .boolT]),
    (0x02, [.word .addressT, .word .addressT, .word .u160]),
    (0x03, [.tupleArray permitDetailsFields, .word .addressT, .word .u256]),
    (0x04, [.word .addressT, .word .addressT, .word .u256]),
    (0x05, [.word .addressT, .word .addressT, .word .u256]),
    (0x06, [.word .addressT, .word .addressT, .word .u256]),
    (0x08, [.word .addressT, .word .u256, .word .u256, .addrArray, .word .boolT]),
    (0x09, [.word .addressT, .word .u256, .word .u256, .addrArray, .word .boolT]),
    (0x0A, [.tupleS permitDetailsFields, .word .addressT, .word .u256]),
    (0x0B, [.word .addressT, .word .u256]),
    (0x0C, [.word .addressT, .word .u256]),
    (0x0D, [.tupleArray transferBatchFields]),
    (0x0E, [.word .addressT, .word .addressT, .word .u256]),
    (0x10, [.word .u256, .bytesT]),
    (0x11, [.word .u256, .bytesT]),
    (0x12, [.word .u256, .bytesT]),
    (0x13, [.word .u256, .word .addressT, .word .u256]),
    (0x15, [.word .addressT, .word .addressT, .word .u256]),
    (0x16, [.word .addressT, .word .addressT, .word .u256, .word .u256]),
    (0x17, [.word .addressT, .word .addressT, .word .u256]),
    (0x18, [.word .u256, .bytesT, .word .addressT, .word .addressT, .word .u256]),
    (0x19, [.word .u256, .bytesT]),
    (0x1A, [.word .u256, .bytesT]),
    (0x1B, [.word .u256, .bytesT, .word .addressT, .word .addressT, .word .u256, .word .u256]),
    (0x1C, [.word .u256, .bytesT, .word .addressT, .word .addressT, .word .u256]),
    (0x1D, [.word .addressT, .word .addressT, .word .u256, .word .u256]),
    (0x1E, [.word .u256, .bytesT]),
    (0x20, [.word .u256, .bytesT]),
    (0x21, [.bytesT, .bytesArray]),
    (0x22, [.word .addressT, .word .addressT]) ]

/-- Lookup in the decode dispatch table (`ALL_COMMANDS_BY_TYPE`). -/
def ALL_COMMANDS_BY_TYPE (t : Nat) : Option (List AbiType) :=
  (commandTable.find? fun e => e.1 == t).map fun e => e.2

/-- `Command.is_revertible`: the `ClassVar` default is `False` and no
subclass overrides it. -/
def is_revertible (_t : Nat) : Bool := false

/-- `Constants._ALLOW_REVERT_FLAG`. -/
def ALLOW_REVERT_FLAG : Nat := 0x80

/-- `Constants._COMMAND_TYPE_MASK`. -/
def COMMAND_TYPE_MASK : Nat := 0x3F

/-- One parsed UniversalRouter command: its opcode, argument values and
revert flag (the `Command` pydantic model). -/
structure Command where
  ctype : Nat
  args : List AbiValue
  allow_revert : Bool
deriving DecidableEq, Repr

/-- `Command.command_byte`: `(0x80 if allow_revert else 0x0) | type`. -/
def Command.command_byte (c : Command) : Nat :=
  (if c.allow_revert then ALLOW_REVERT_FLAG else 0x0) ||| c.ctype

/-- `Command.encode_args`: ABI-encode the argument list against the
class definition. -/
def Command.encode_args (c : Command) : List Nat :=
  match ALL_COMMANDS_BY_TYPE c.ctype with
  | some defn => encodeArgs defn c.args
  | none => []

/-- The failures `Command.decode` can raise. -/
inductive CmdErr
  | unknownOpcode
  | notRevertible
  | decodeError
deriving DecidableEq, Repr

/-- Decidable equality of `Except` results (for concrete evaluations). -/
instance exceptDecEq {e a : Type} [DecidableEq e] [DecidableEq a] :
    DecidableEq (Except e a) := fun x y =>
  match x, y with
  | .error u, .error v =>
    if h : u = v then .isTrue (by rw [h])
    else .isFalse fun hc => h (by cases hc; rfl)
  | .ok u, .ok v =>
    if h : u = v then .isTrue (by rw [h])
    else .isFalse fun hc => h (by cases hc; rfl)
  | .error _, .ok _ => .isFalse fun hc => Except.noConfusion hc
  | .ok _, .error _ => .isFalse fun hc => Except.noConfusion hc

/-- `Command.decode`: mask out the opcode, look it up, check the revert
flag, then ABI-decode the calldata. -/
def Command.decode (command_byte : Nat) (calldata : List Nat) : Except CmdErr Command :=
  match ALL_COMMANDS_BY_TYPE (command_byte &&& COMMAND_TYPE_MASK) with
  | none => .error .unknownOpcode
  | some defn =>
    if ((command_byte &&& ALLOW_REVERT_FLAG) != 0)
        && !is_revertible (command_byte &&& COMMAND_TYPE_MASK) then
      .error .notRevertible
    else
      match decodeArgs defn calldata with
      | none => .error .decodeError
      | some args =>
        .ok ⟨command_byte &&& COMMAND_TYPE_MASK, args,
          (command_byte &&& ALLOW_REVERT_FLAG) != 0⟩

/-- The argument values type-check against the command definition
(the claim notion of a valid command: opcode in the supported table,
args matching the definition). -/
def Command.wellTyped (c : Command) : Bool :=
  match ALL_COMMANDS_BY_TYPE c.ctype with
  | none => false
  | some defn =>
    (defn.length == c.args.length)
      && ((List.zip defn c.args).all fun it => abiValid it.1 it.2)

/-- An ordered container of commands (the `Plan` pydantic model). -/
structure Plan where
  commands : List Command
deriving DecidableEq, Repr

/-- `Plan.encoded_commands`: one command byte per command, in order. -/
def Plan.encoded_commands (p : Plan) : List Nat :=
  p.commands.map Command.command_byte

/-- `Plan.encode_args`: one argument byte string per command, in order. -/
def Plan.encode_args (p : Plan) : List (List Nat) :=
  p.commands.map Command.encode_args

/-- Decode a zipped list of command byte / calldata steps, failing on
the first failing step (the list comprehension in `Plan.decode`). -/
def decodeSteps : List (Nat × List Nat) → Except CmdErr (List Command)
  | [] => .ok []
  | (b, cd) :: rest =>
    match Command.decode b cd with
    | .error e => .error e
    | .ok c =>
      match decodeSteps rest with
      | .error e => .error e
      | .ok cs => .ok (c :: cs)

/-- `Plan.decode(encoded_commands, encoded_args)`. -/
def Plan.decode (encoded_commands : List Nat) (encoded_args : List (List Nat)) :
    Except CmdErr Plan :=
  (decodeSteps (List.zip encoded_commands encoded_args)).map Plan.mk

/-! ### Facts about the command table -/

theorem commandTable_facts :
    (commandTable.all fun e =>
      decide (e.1 < 64) && e.2.all tWellFormed
        && (e.2.all fun ty => ty.headSize != 0) && !e.2.isEmpty) = true := by
  decide

theorem byte_facts : ∀ t : Nat, t < 64 →
    (0 ||| t) = t ∧ t &&& 63 = t ∧ ((t &&& 128) != 0) = false ∧
    (128 ||| t) &&& 63 = t ∧ (((128 ||| t) &&& 128) != 0) = true := by
  decide

theorem ALL_COMMANDS_BY_TYPE_facts {t : Nat} {defn : List AbiType}
    (h : ALL_COMMANDS_BY_TYPE t = some defn) :
    t < 64 ∧ defn.all tWellFormed = true
      ∧ (defn.all fun ty => ty.headSize != 0) = true ∧ defn ≠ [] := by
  rw [ALL_COMMANDS_BY_TYPE] at h
  rw [Option.map_eq_some'] at h
  obtain ⟨e, he, hd⟩ := h
  have hmem : e ∈ commandTable := List.mem_of_find?_eq_some he
  have hkey := List.find?_some he
  simp only [beq_iff_eq] at hkey
  have hfacts := List.all_eq_true.mp commandTable_facts e hmem
  simp only [Bool.and_eq_true, decide_eq_true_eq] at hfacts
  subst hkey
  subst hd
  refine ⟨hfacts.1.1.1, hfacts.1.1.2, hfacts.1.2, ?_⟩
  intro hc
  rw [hc] at hfacts
  simp at hfacts

/-- Round-trip of one command: decoding the encoded command byte and
arguments of a well-typed command with a clear revert flag recovers it. -/
theorem Command.decode_encode {c : Command} (hw : c.wellTyped = true)
    (hrev : c.allow_revert = false)
    (hsize : c.encode_args.length < 2 ^ 256) :
    Command.decode c.command_byte c.encode_args = .ok c := by
  obtain ⟨t, args, ar⟩ := c
  simp only at hrev
  subst hrev
  rw [Command.wellTyped] at hw
  simp only at hw hsize
  rcases hdef : ALL_COMMANDS_BY_TYPE t with _ | defn
  · rw [hdef] at hw
    simp at hw
  · rw [hdef] at hw
    simp only [Bool.and_eq_true, beq_iff_eq] at hw
    have hfacts := ALL_COMMANDS_BY_TYPE_facts hdef
    have hbyte := byte_facts t hfacts.1
    have henc : Command.encode_args ⟨t, args, false⟩ = encodeArgs defn args := by
      rw [Command.encode_args]
      simp only
      rw [hdef]
    rw [henc] at hsize
    have hdec := decodeArgs_encodeArgs hw.1 hw.2 hfacts.2.1 hsize
    have hcb : Command.command_byte ⟨t, args, false⟩ = t := by
      rw [Command.command_byte]
      simp only [if_neg, Bool.false_eq_true, if_false]
      exact hbyte.1
    rw [hcb, henc]
    simp [Command.decode, COMMAND_TYPE_MASK, ALLOW_REVERT_FLAG, hbyte.2.1, hdef,
      hbyte.2.2.1, hdec, is_revertible]

theorem decodeSteps_encode {cs : List Command}
    (hw : ∀ c ∈ cs, c.wellTyped = true ∧ c.allow_revert = false
      ∧ c.encode_args.length < 2 ^ 256) :
    decodeSteps (List.zip (cs.map Command.command_byte) (cs.map Command.encode_args))
      = .ok cs := by
  induction cs with
  | nil => rfl
  | cons c cs ih =>
    have hc := hw c (by simp)
    have hrest : ∀ x ∈ cs, x.wellTyped = true ∧ x.allow_revert = false
        ∧ x.encode_args.length < 2 ^ 256 := fun x hx => hw x (by simp [hx])
    have hdec := Command.decode_encode hc.1 hc.2.1 hc.2.2
    show decodeSteps (List.zip
        (Command.command_byte c :: cs.map Command.command_byte)
        (Command.encode_args c :: cs.map Command.encode_args)) = .ok (c :: cs)
    rw [List.zip_cons_cons]
    simp only [decodeSteps, hdec, ih hrest]

/-! ### Claims C1, C5 and C6 (command protocol codec) -/

/-- Claim C1, amended round-trip: for every Plan whose commands have
supported opcodes with well-typed arguments, whose revert flags are all
clear (no supported command is revertible, so a set flag is rejected on
decode), and whose per-command argument encodings are small enough for
their offsets to fit in a 32-byte word, decoding the encoded plan
reproduces it exactly, preserving command order, argument values and
revert flags. -/
theorem C1_plan_roundtrip (p : Plan)
    (hw : ∀ c ∈ p.commands, c.wellTyped = true ∧ c.allow_revert = false
      ∧ c.encode_args.length < 2 ^ 256) :
    Plan.decode p.encoded_commands p.encode_args = .ok p := by
  rw [Plan.decode, Plan.encoded_commands, Plan.encode_args, decodeSteps_encode hw]
  rfl

/-- The recipient of the scenario commands
(`0xf39Fd6e51aad88F6F4ce6aB8827279cffFb92266`). -/
def DEV : Nat := 0xf39Fd6e51aad88F6F4ce6aB8827279cffFb92266

/-- A valid WRAP_ETH command (supported opcode `0x0B`, args matching the
definition) with the revert flag set. -/
def wrapEthRevert : Command := ⟨0x0B, [.word DEV, .word (10 ^ 18)], true⟩

/-- A one-command plan carrying `wrapEthRevert`. -/
def planRevert : Plan := ⟨[wrapEthRevert]⟩

/-- Claim C1, counterexample: a plan holding a valid WRAP_ETH command
with `allow_revert = True` does not round-trip: `Plan.decode` raises the
not-revertible error instead of reproducing the plan, because no
supported command class is revertible. -/
theorem C1_counterexample :
    wrapEthRevert.wellTyped = true
    ∧ Plan.decode planRevert.encoded_commands planRevert.encode_args
        = .error .notRevertible
    ∧ Plan.decode planRevert.encoded_commands planRevert.encode_args
        ≠ .ok planRevert := by
  refine ⟨by decide, by decide, by decide⟩

/-- A valid WRAP_ETH command with the revert flag clear. -/
def wrapEthPlain : Command := ⟨0x0B, [.word DEV, .word (10 ^ 18)], false⟩

/-- A one-command plan carrying `wrapEthPlain`. -/
def planPlain : Plan := ⟨[wrapEthPlain]⟩

/-- Witness for the amended claim C1 at a concrete one-command plan. -/
theorem C1_witness :
    Plan.decode planPlain.encoded_commands planPlain.encode_args = .ok planPlain :=
  C1_plan_roundtrip planPlain (by decide)

/-- Claim C5: `Command.decode` fails with the unknown-opcode error for
every command byte whose low 6 bits are not in the decode table, and
fails (never silently decodes) for every supported opcode when the
calldata is shorter than the minimum byte length the type list forces:
the total head size, read with strict 32-byte word reads. -/
theorem C5_decode_failures (command_byte : Nat) (calldata : List Nat) :
    (ALL_COMMANDS_BY_TYPE (command_byte &&& COMMAND_TYPE_MASK) = none →
      Command.decode command_byte calldata = .error .unknownOpcode)
    ∧ (∀ defn, ALL_COMMANDS_BY_TYPE (command_byte &&& COMMAND_TYPE_MASK) = some defn →
        calldata.length < headSizeSum defn →
        ∃ e, Command.decode command_byte calldata = .error e) := by
  constructor
  · intro h
    rw [Command.decode, h]
  · intro defn hdefn hlen
    have hfacts := ALL_COMMANDS_BY_TYPE_facts hdefn
    have hargs : decodeArgs defn calldata = none := by
      rcases hda : decodeArgs defn calldata with _ | args
      · rfl
      · exfalso
        rw [decodeArgs] at hda
        have := decodeSeq_minlen defn 0 args hda hfacts.2.2.2 hfacts.2.2.1
        omega
    by_cases hrev : (((command_byte &&& ALLOW_REVERT_FLAG) != 0)
        && !is_revertible (command_byte &&& COMMAND_TYPE_MASK)) = true
    · refine ⟨.notRevertible, ?_⟩
      simp only [Command.decode, hdefn]
      rw [if_pos hrev]
    · refine ⟨.decodeError, ?_⟩
      simp only [Command.decode, hdefn]
      rw [if_neg hrev, hargs]

/-- Witness for claim C5: opcode `0x07` is unsupported; `0x0B`
(WRAP_ETH) with three bytes of calldata is below its 64-byte minimum. -/
theorem C5_witness :
    Command.decode 0x07 [] = .error .unknownOpcode
    ∧ (∃ e, Command.decode 0x0B [0, 1, 2] = .error e) := by
  constructor
  · exact (C5_decode_failures 0x07 []).1 (by decide)
  · exact (C5_decode_failures 0x0B [0, 1, 2]).2
      [.word .addressT, .word .u256] (by decide) (by decide)

/-- The WRAP_ETH scenario command: recipient `DEV`, amountMin `10^18`,
revert flag clear. -/
def wrapEthExample : Command := ⟨0x0B, [.word DEV, .word (10 ^ 18)], false⟩

/-- Claim C6: encoding the WRAP_ETH scenario command produces command
byte `0x0B` and exactly 64 bytes of arguments, the recipient address
left-padded to 32 bytes followed by the amount as a 32-byte big-endian
integer; in general the command byte is the revert flag shifted into the
top bit or-ed with the opcode. -/
theorem C6_wrap_eth_encode :
    wrapEthExample.command_byte = 0x0B
    ∧ wrapEthExample.encode_args
        = (List.replicate 12 0 ++ natToBytesBE 20 DEV) ++ natToBytesBE 32 (10 ^ 18)
    ∧ wrapEthExample.encode_args.length = 64
    ∧ ∀ (t : Nat) (args : List AbiValue) (ar : Bool),
        (Command.mk t args ar).command_byte = ((if ar then 1 else 0) <<< 7) ||| t := by
  refine ⟨by decide, by decide, by decide, ?_⟩
  intro t args ar
  cases ar <;> simp [Command.command_byte, ALLOW_REVERT_FLAG]

/-! ### `encode_path` packed path encoding (C10) -/

/-- The two packed types cycled over a path:
`cycle(["address", "uint24"])`. -/
inductive PackedType
  | addressP
  | uint24P
deriving DecidableEq, Repr

/-- Packed byte width of a path element type. -/
def packedSize : PackedType → Nat
  | .addressP => 20
  | .uint24P => 3

/-- `[type for _, type in zip(path, cycle(["address", "uint24"]))]`:
one type per path element, alternating, starting from `address`. -/
def pathTypes : List Nat → Bool → List PackedType
  | [], _ => []
  | _ :: rest, isAddr =>
    (if isAddr then PackedType.addressP else PackedType.uint24P) :: pathTypes rest (!isAddr)

/-- `eth_abi.packed.encode_packed(types, path)` for these fixed-width
types: big-endian values back to back, no padding. -/
def encode_packed (types : List PackedType) (vals : List Nat) : List Nat :=
  (List.zipWith (fun t v => natToBytesBE (packedSize t) v) types vals).flatten

/-- `encode_path(path)` (universal_router.py:118-123).  The odd-length
validation at lines 119-120 constructs `ValueError(...)` without a
`raise` statement, so it has no effect and the function unconditionally
returns the packed encoding. -/
def encode_path (path : List Nat) : Except String (List Nat) :=
  .ok (encode_packed (pathTypes path true) path)

/-- The packed path encoding spelled pairwise: a 20-byte address, then a
3-byte fee, alternating from the first element. -/
def packedPathBytes : List Nat → List Nat
  | [] => []
  | [a] => natToBytesBE 20 a
  | a :: f :: rest => natToBytesBE 20 a ++ (natToBytesBE 3 f ++ packedPathBytes rest)

theorem encode_packed_pathTypes :
    ∀ (path : List Nat),
    encode_packed (pathTypes path true) path = packedPathBytes path := by
  intro path
  induction path using packedPathBytes.induct with
  | case1 => rfl
  | case2 a => simp [encode_packed, pathTypes, packedPathBytes, packedSize]
  | case3 a f rest ih =>
    simp only [encode_packed, packedSize] at ih
    simp only [pathTypes, packedPathBytes, encode_packed, packedSize, Bool.not_true,
      Bool.not_false, List.zipWith_cons_cons, List.flatten_cons]
    simp only [if_true, Bool.false_eq_true, if_false]
    rw [ih]

/-- Claim C10: `encode_path` never raises its odd-length validation
error for any input list; for an even-length path list (one ending on a
fee value with no terminal token address) it returns the packed
encoding of the given elements against the cyclic address/uint24 type
sequence instead of rejecting the malformed path. -/
theorem C10_encode_path_never_raises (path : List Nat) :
    (∀ msg, encode_path path ≠ .error msg)
    ∧ (path.length % 2 = 0 → encode_path path = .ok (packedPathBytes path)) := by
  constructor
  · intro msg hc
    rw [encode_path] at hc
    exact Except.noConfusion hc
  · intro _
    rw [encode_path, encode_packed_pathTypes]

/-- Witness for claim C10 at the even-length two-element path
`[WETH, 10000]` (a path truncated after a fee, no terminal token). -/
theorem C10_witness :
    (0 + 0 : Nat) % 2 = 0 ∧
    encode_path [0xC02aaA39b223FE8D0A0e5C4F27eAD9083C756Cc2, 10000]
      = .ok (packedPathBytes [0xC02aaA39b223FE8D0A0e5C4F27eAD9083C756Cc2, 10000]) :=
  ⟨by decide,
    (C10_encode_path_never_raises
      [0xC02aaA39b223FE8D0A0e5C4F27eAD9083C756Cc2, 10000]).2 (by decide)⟩

/-! ### v3 pool pricing primitives (C7, C8, C9) -/

/-- Selector for one of the two pool tokens (`is_token0`/`is_token1`
dispatch; a token outside the pool is not representable here). -/
inductive TokSel
  | token0
  | token1
deriving DecidableEq, Repr

/-- The data of a `v3.Pool` used by the pricing primitives: raw ERC-20
reserves (`token.balanceOf(pool)`), token decimal precisions, and the
`Fee` enum value. -/
structure V3Pool where
  reserve0 : Nat
  reserve1 : Nat
  decimals0 : Nat
  decimals1 : Nat
  feeValue : Nat
deriving DecidableEq, Repr

/-- Raw reserve of the selected token. -/
def V3Pool.reserveOf (p : V3Pool) : TokSel → Nat
  | .token0 => p.reserve0
  | .token1 => p.reserve1

/-- Declared decimal precision of the selected token. -/
def V3Pool.decimalsOf (p : V3Pool) : TokSel → Nat
  | .token0 => p.decimals0
  | .token1 => p.decimals1

/-- `Fee.to_decimal()`: `self.value / Decimal(10 ** 6)`
(`Fee.MAXIMUM = 1_000_000`). -/
def feeToDecimal (fee : Nat) : ℚ := (fee : ℚ) / 1000000

/-- `Liquidity.__getitem__` (v3.py:380-392), the live read: the raw
balance of the selected token scaled down by that token's own decimal
precision. -/
def liquidityGet (p : V3Pool) : TokSel → ℚ
  | .token0 => (p.reserve0 : ℚ) / 10 ^ p.decimals0
  | .token1 => (p.reserve1 : ℚ) / 10 ^ p.decimals1

/-- `_ManagedLiquidity.__getitem__` (v3.py:406-412), the managed read
over cached reserves `r0`, `r1`.  As written at v3.py:409, the token0
branch divides `reserve0` by `token1.decimals()`. -/
def managedLiquidityGet (p : V3Pool) (r0 r1 : Nat) : TokSel → ℚ
  | .token0 => (r0 : ℚ) / 10 ^ p.decimals1
  | .token1 => (r1 : ℚ) / 10 ^ p.decimals1

/-- `Pool.depth(token, slippage)` (v3.py:330-341) with `Decimal.sqrt`
abstracted as `dsqrt`: rejects a slippage ratio outside `(0, 1)` with a
ValueError, else returns
`(liquidity[token] / (1 - fee)) * (1 / (1 - slippage).sqrt() - 1)`. -/
def Pool.depth (dsqrt : ℚ → ℚ) (p : V3Pool) (tok : TokSel) (slippage : ℚ) :
    Except String ℚ :=
  if ¬(0 < slippage ∧ slippage < 1) then
    .error "Slippage out of bounds"
  else
    .ok ((liquidityGet p tok / (1 - feeToDecimal p.feeValue))
      * (1 / dsqrt (1 - slippage) - 1))

/-- `Pool.reflexivity(token, size)` (v3.py:343-355): rejects a size
outside `(0, liquidity)` with a ValueError (`SizeOutOfBounds`), else
returns `1 - (liquidity / (liquidity + (1 - fee) * size)) ** 2`. -/
def Pool.reflexivity (p : V3Pool) (tok : TokSel) (size : ℚ) : Except String ℚ :=
  if ¬(0 < size ∧ size < liquidityGet p tok) then
    .error "Size out of bounds"
  else
    .ok (1 - (liquidityGet p tok
      / (liquidityGet p tok + (1 - feeToDecimal p.feeValue) * size)) ^ 2)

/-- Claim C7: for a pool token with (scaled) reserve `r` and fee `f`,
`depth(token, s)` equals `(r / (1 - f)) * (1 / sqrt(1 - s) - 1)` when
`0 < s < 1`, and fails with the slippage validation error otherwise. -/
theorem C7_depth (dsqrt : ℚ → ℚ) (p : V3Pool) (tok : TokSel) (s : ℚ) :
    (0 < s → s < 1 →
      Pool.depth dsqrt p tok s
        = .ok ((((p.reserveOf tok : ℚ) / 10 ^ p.decimalsOf tok)
            / (1 - (p.feeValue : ℚ) / 1000000))
          * (1 / dsqrt (1 - s) - 1)))
    ∧ (¬(0 < s ∧ s < 1) →
      Pool.depth dsqrt p tok s = .error "Slippage out of bounds") := by
  constructor
  · intro h1 h2
    rw [Pool.depth, if_neg (not_not_intro ⟨h1, h2⟩)]
    cases tok <;>
      simp [liquidityGet, feeToDecimal, V3Pool.reserveOf, V3Pool.decimalsOf]
  · intro h
    rw [Pool.depth, if_pos h]

/-- Witness for claim C7 at a concrete pool, token and slippage. -/
theorem C7_witness :
    (0 : ℚ) < 1 / 2 ∧ (1 : ℚ) / 2 < 1 ∧
    Pool.depth (fun q => q) ⟨1000, 2000, 0, 0, 3000⟩ .token0 (1 / 2)
      = .ok ((((1000 : ℚ) / 10 ^ 0) / (1 - (3000 : ℚ) / 1000000))
          * (1 / ((1 : ℚ) - 1 / 2) - 1)) :=
  ⟨by norm_num, by norm_num,
    (C7_depth (fun q => q) ⟨1000, 2000, 0, 0, 3000⟩ .token0 (1 / 2)).1
      (by norm_num) (by norm_num)⟩

/-- Claim C8: for a pool token with current liquidity `L` and fee `f`,
`reflexivity(token, size)` equals `1 - (L / (L + (1 - f) * size)) ^ 2`
when `0 < size < L`, and fails with the size-out-of-bounds error
otherwise. -/
theorem C8_reflexivity (p : V3Pool) (tok : TokSel) (size : ℚ) :
    (0 < size → size < liquidityGet p tok →
      Pool.reflexivity p tok size
        = .ok (1 - (liquidityGet p tok
            / (liquidityGet p tok + (1 - (p.feeValue : ℚ) / 1000000) * size)) ^ 2))
    ∧ (¬(0 < size ∧ size < liquidityGet p tok) →
      Pool.reflexivity p tok size = .error "Size out of bounds") := by
  constructor
  · intro h1 h2
    rw [Pool.reflexivity, if_neg (not_not_intro ⟨h1, h2⟩)]
    rw [feeToDecimal]
  · intro h
    rw [Pool.reflexivity, if_pos h]

/-- Witness for claim C8 at a concrete pool, token and trade size. -/
theorem C8_witness :
    (0 : ℚ) < 1 ∧ (1 : ℚ) < liquidityGet ⟨1000, 2000, 0, 0, 3000⟩ .token0 ∧
    Pool.reflexivity ⟨1000, 2000, 0, 0, 3000⟩ .token0 1
      = .ok (1 - (liquidityGet ⟨1000, 2000, 0, 0, 3000⟩ .token0
          / (liquidityGet ⟨1000, 2000, 0, 0, 3000⟩ .token0
            + (1 - (3000 : ℚ) / 1000000) * 1)) ^ 2) :=
  ⟨by norm_num, by norm_num [liquidityGet],
    (C8_reflexivity ⟨1000, 2000, 0, 0, 3000⟩ .token0 1).1
      (by norm_num) (by norm_num [liquidityGet])⟩

/-- A pool whose tokens declare different decimal precisions: token0
has 6 decimals and a raw reserve of `10^6` (one whole token), token1
has 18 decimals. -/
def c9Pool : V3Pool := ⟨1000000, 5000, 6, 18, 3000⟩

/-- Claim C9 evaluation: on identical raw reserves, the live liquidity
read returns one whole token0 while the managed read returns `10^-12`
token0, because v3.py:409 scales `reserve0` by token1's decimals; the
two reads disagree whenever the two tokens declare different decimal
precisions. -/
theorem C9_managed_vs_live :
    liquidityGet c9Pool .token0 = 1
    ∧ managedLiquidityGet c9Pool c9Pool.reserve0 c9Pool.reserve1 .token0
        = 1 / 10 ^ 12
    ∧ liquidityGet c9Pool .token0
        ≠ managedLiquidityGet c9Pool c9Pool.reserve0 c9Pool.reserve1 .token0 := by
  refine ⟨by norm_num [liquidityGet, c9Pool], by norm_num [managedLiquidityGet, c9Pool], ?_⟩
  norm_num [liquidityGet, managedLiquidityGet, c9Pool]

/-! ### Solver data model (C2, C3, C4)

`solver.py` operates on `BasePair` pools generically; the pool identity
data is concrete and the four pricing methods are supplied by an
environment record. -/

/-- Python `int(...)` on a `Decimal`: truncation toward zero. -/
def pyInt (q : ℚ) : ℤ := Int.tdiv q.num q.den

/-- A token handle: chain address and declared decimal precision. -/
structure MToken where
  address : Nat
  decimals : Nat
deriving DecidableEq, Repr

/-- The protocol generation a pool belongs to (`v2.Pair` / `v3.Pool`). -/
inductive PoolVer
  | v2
  | v3
deriving DecidableEq, Repr

/-- Pool identity data used by the solver and the plan compiler:
address (equality and hashing are by address), fee tier, protocol
generation, and the two canonical tokens. -/
structure MPool where
  address : Nat
  ver : PoolVer
  fee : Nat
  token0 : MToken
  token1 : MToken
deriving DecidableEq, Repr

/-- `BasePair.key`: the fee tier value, used as the multigraph edge
key. -/
def MPool.key (p : MPool) : Nat := p.fee

/-- `BasePair.other(token)` by address comparison. -/
def MPool.other (p : MPool) (t : MToken) : MToken :=
  if t.address = p.token0.address then p.token1 else p.token0

/-- A route: an ordered list of pools. -/
abbrev MRoute := List MPool

/-- The abstract pricing interface the solver consumes from its pools
(`price`, `liquidity`, `depth`, `reflexivity`); `price` returns `none`
where the source raises ValueError (uninitialized pool). -/
structure PoolEnv where
  price : MPool → Nat → Option ℚ
  liquidity : MPool → Nat → ℚ
  depth : MPool → Nat → ℚ → ℚ
  reflexivity : MPool → Nat → ℚ → ℚ

/-- Orders (`types.ExactInOrder` / `types.ExactOutOrder`). -/
inductive MOrder
  | exactIn (haveTok wantTok : MToken) (amount_in min_amount_out slippage : ℚ)
  | exactOut (haveTok wantTok : MToken) (max_amount_in amount_out slippage : ℚ)
deriving DecidableEq, Repr

def MOrder.haveTok : MOrder → MToken
  | .exactIn h _ _ _ _ => h
  | .exactOut h _ _ _ _ => h

def MOrder.wantTok : MOrder → MToken
  | .exactIn _ w _ _ _ => w
  | .exactOut _ w _ _ _ => w

def MOrder.slippage : MOrder → ℚ
  | .exactIn _ _ _ _ s => s
  | .exactOut _ _ _ _ s => s

/-- An `ExactOutOrder` is executed in reverse (solver.py:24). -/
def MOrder.isReverse : MOrder → Bool
  | .exactIn _ _ _ _ _ => false
  | .exactOut _ _ _ _ _ => true

/-- The solver start token (`want` for reverse orders). -/
def MOrder.startTok (o : MOrder) : MToken :=
  if o.isReverse then o.wantTok else o.haveTok

/-- The solver end token. -/
def MOrder.endTok (o : MOrder) : MToken :=
  if o.isReverse then o.haveTok else o.wantTok

/-- The total demand routed by the solver (`amount_in`, or `amount_out`
for reverse orders). -/
def MOrder.demand : MOrder → ℚ
  | .exactIn _ _ a _ _ => a
  | .exactOut _ _ _ a _ => a

def MOrder.isExactIn : MOrder → Bool
  | .exactIn _ _ _ _ _ => true
  | .exactOut _ _ _ _ _ => false

/-- `total_amount_in` of `convert_solution_to_plan` (solver.py:119). -/
def MOrder.total_amount_in : MOrder → ℚ
  | .exactIn _ _ a _ _ => a
  | .exactOut _ _ a _ _ => a

/-- `total_amount_out` of `convert_solution_to_plan` (solver.py:120). -/
def MOrder.total_amount_out : MOrder → ℚ
  | .exactIn _ _ _ a _ => a
  | .exactOut _ _ _ a _ => a

/-! ### The solver flow network (`solve`, solver.py:20-106) -/

/-- A directed multigraph edge with its NetworkX attributes. -/
structure GEdge where
  src : Nat
  dst : Nat
  key : Nat
  capacity : ℤ
  weight : ℤ
  pair : MPool
deriving DecidableEq, Repr

/-- The flow network `G` with its two demand nodes. -/
structure Graph where
  startAddr : Nat
  endAddr : Nat
  demandInt : ℤ
  edges : List GEdge
deriving DecidableEq, Repr

/-- `MultiDiGraph.add_edge`: an edge with an existing `(src, dst, key)`
triple overwrites that edge's attributes, otherwise it is appended. -/
def addEdge (es : List GEdge) (e : GEdge) : List GEdge :=
  if es.any fun e2 => e2.src == e.src && e2.dst == e.dst && e2.key == e.key then
    es.map fun e2 =>
      if e2.src == e.src && e2.dst == e.dst && e2.key == e.key then e else e2
  else es ++ [e]

/-- The inner hop loop of `solve` (solver.py:45-76) for one route:
walk the pools, keep a running price, abandon the route when a price is
unavailable, and add one edge per hop with
`capacity = int((depth(other, slippage) / price) * ONE)` and
`weight = int(10000 * (slippage if depth < demand * price else
reflexivity(other, demand * price)))`.
(The running `liquidity = min(liquidity, pair.liquidity[token] / price)`
of solver.py:46 is computed but never used, so it is omitted.) -/
def addRouteEdges (env : PoolEnv) (slippage demand : ℚ) (one : Nat) :
    MToken → ℚ → List MPool → List GEdge → List GEdge
  | _, _, [], es => es
  | token, price, pair :: rest, es =>
    match env.price pair token.address with
    | none => es
    | some pr =>
      let price2 := price * pr
      let tokenNew := pair.other token
      let depth := env.depth pair tokenNew.address slippage
      let cap := pyInt ((depth / price2) * (one : ℚ))
      let wt := pyInt (10000 * (if depth < demand * price2 then slippage
        else env.reflexivity pair tokenNew.address (demand * price2)))
      addRouteEdges env slippage demand one tokenNew price2 rest
        (addEdge es ⟨token.address, tokenNew.address, pair.key, cap, wt, pair⟩)

/-- The graph construction of `solve` (solver.py:23-76): demands in
integer start-token units, reversed routes for reverse orders, one edge
per hop per route. -/
def buildGraph (env : PoolEnv) (order : MOrder) (routes : List MRoute) : Graph :=
  let one : Nat := 10 ^ (order.startTok).decimals
  let routes2 := if order.isReverse then routes.map List.reverse else routes
  { startAddr := (order.startTok).address
    endAddr := (order.endTok).address
    demandInt := pyInt (order.demand * (one : ℚ))
    edges := routes2.foldl
      (fun es route => addRouteEdges env order.slippage order.demand one
        order.startTok 1 route es) [] }

/-! ### The NetworkX `min_cost_flow` contract

`min_cost_flow` is external; it is modelled by its documented contract:
it returns a flow dict satisfying every edge capacity and every node
demand, or raises `NetworkXUnfeasible` (modelled as `none`) when no
such flow exists. -/

/-- One flow entry: `((u, v, key), amount)`. -/
abbrev FlowEntry := (Nat × Nat × Nat) × ℤ

/-- A NetworkX flow dict, flattened to entries in edge order. -/
abbrev FlowDict := List FlowEntry

/-- The flow entries cover exactly the graph edges, in order, each
amount within `[0, capacity]`. -/
def entriesMatch : List GEdge → FlowDict → Bool
  | [], [] => true
  | e :: es, ((u, v, k), a) :: fs =>
    u == e.src && v == e.dst && k == e.key
      && decide (0 ≤ a) && decide (a ≤ e.capacity) && entriesMatch es fs
  | _, _ => false

/-- All node addresses of the graph (duplicates are harmless). -/
def nodeAddrs (G : Graph) : List Nat :=
  G.startAddr :: G.endAddr :: (G.edges.map GEdge.src ++ G.edges.map GEdge.dst)

/-- Node demand: `-demand` at the start node, `+demand` at the end node
(the end node's `add_node` call runs second, so it wins a collision). -/
def demandOf (G : Graph) (ad : Nat) : ℤ :=
  if ad = G.endAddr then G.demandInt
  else if ad = G.startAddr then -G.demandInt else 0

/-- Total flow into a node. -/
def flowInto (f : FlowDict) (ad : Nat) : ℤ :=
  (f.filter fun e => e.1.2.1 == ad).foldl (fun s e => s + e.2) 0

/-- Total flow out of a node. -/
def flowOutOf (f : FlowDict) (ad : Nat) : ℤ :=
  (f.filter fun e => e.1.1 == ad).foldl (fun s e => s + e.2) 0

/-- A feasible flow for the graph: entries match the edges within
capacities and every node balance meets its demand. -/
def isFeasibleFlow (G : Graph) (f : FlowDict) : Bool :=
  entriesMatch G.edges f
    && (nodeAddrs G).all fun ad => flowInto f ad - flowOutOf f ad == demandOf G ad

/-- All candidate flow dicts over the graph edges (each amount ranging
over `[0, capacity]`); used to state that a feasible flow is unique. -/
def allFlowDicts (G : Graph) : List FlowDict :=
  G.edges.foldr
    (fun e acc => (List.range (e.capacity.toNat + 1)).flatMap
      fun a => acc.map fun f => ((e.src, e.dst, e.key), (a : ℤ)) :: f)
    [[]]

/-! ### Flow decomposition (`utils.convert_flows_to_routes`) and `solve` -/

/-- `G[start][token][key].get("pair")` (the `get_pair` lambda of
solver.py:89). -/
def graphGetPair (G : Graph) (u v k : Nat) : Option MPool :=
  (G.edges.find? fun e => e.src == u && e.dst == v && e.key == k).map fun e => e.pair

/-- `utils.convert_flows_to_routes`: walk positive-flow edges from
`start`, recursing to `end`, prepending (or appending, in reverse mode)
the hop pair and taking the minimum flow along the partial path.  The
Python recursion carries no fuel; recursion depth is bounded by the
number of positive-flow edges when the flow is acyclic, so a fuel of
`flows.length + 1` per level is sufficient there. -/
def convert_flows_to_routes (flows : FlowDict) (getPair : Nat → Nat → Nat → Option MPool)
    (end_ : Nat) (execute_in_reverse : Bool) : Nat → Nat → List (MRoute × ℤ)
  | 0, _ => []
  | fuel + 1, start =>
    (flows.filter fun e => e.1.1 == start).flatMap fun e =>
      if e.2 == 0 then []
      else
        match getPair start e.1.2.1 e.1.2.2 with
        | none => []
        | some pair =>
          if e.1.2.1 == end_ then [([pair], e.2)]
          else
            (convert_flows_to_routes flows getPair end_ execute_in_reverse fuel e.1.2.1).map
              fun pr =>
                (if execute_in_reverse then pr.1 ++ [pair] else pair :: pr.1, min e.2 pr.2)

/-- Python `dict(...)` over an iterator of key/value pairs: later
occurrences of a key overwrite its value in place. -/
def assocUpsert (acc : List (MRoute × ℤ)) (kv : MRoute × ℤ) : List (MRoute × ℤ) :=
  if acc.any fun e => e.1 == kv.1 then
    acc.map fun e => if e.1 == kv.1 then kv else e
  else acc ++ [kv]

/-- `dict(convert_flows_to_routes(...))` (solver.py:84). -/
def dictOf (l : List (MRoute × ℤ)) : List (MRoute × ℤ) := l.foldl assocUpsert []

/-- A solved allocation: route to flow fraction (`Solution`). -/
abbrev MSolution := List (MRoute × ℚ)

/-- `solve(order, routes)` (solver.py:20-106), parameterized by the
`min_cost_flow` oracle `mcf`: build the graph, run the oracle (raising
the solver failure on `NetworkXUnfeasible`), decompose the flows into
per-route amounts, and normalize each amount to a fraction of total
demand.  No check that the fractions sum to one is performed. -/
def solveWith (env : PoolEnv) (mcf : Graph → Option FlowDict)
    (order : MOrder) (routes : List MRoute) : Except String MSolution :=
  let G := buildGraph env order routes
  match mcf G with
  | none => .error "Solver failure: no flow satisfies all node demands"
  | some flows =>
    let sol := dictOf (convert_flows_to_routes flows (graphGetPair G) G.endAddr
      order.isReverse (flows.length + 1) G.startAddr)
    let one : Nat := 10 ^ (order.startTok).decimals
    .ok (sol.map fun e => (e.1, (e.2 : ℚ) / (one : ℚ) / order.demand))

/-- Sum of the flow fractions of a Solution. -/
def sumFractions (sol : MSolution) : ℚ := (sol.map fun e => e.2).sum

/-- Sum of the decomposed per-route amounts. -/
def sumAmounts (l : List (MRoute × ℤ)) : ℤ := (l.map fun e => e.2).sum

/-! ### Claims C2 and C3 (solver invariants and infeasibility) -/

/-- Completeness of the flow enumeration: entries matching the edge
list within capacities are among the enumerated candidates. -/
theorem entriesMatch_mem : ∀ (es : List GEdge) (f : FlowDict),
    entriesMatch es f = true →
    f ∈ es.foldr
      (fun e acc => (List.range (e.capacity.toNat + 1)).flatMap
        fun a => acc.map fun fl => ((e.src, e.dst, e.key), (a : ℤ)) :: fl)
      [[]] := by
  intro es
  induction es with
  | nil =>
    intro f h
    cases f with
    | nil => simp
    | cons e fs => simp [entriesMatch] at h
  | cons e es ih =>
    intro f h
    match f with
    | [] => simp [entriesMatch] at h
    | ((u, v, k), a) :: fs =>
      simp only [entriesMatch, Bool.and_eq_true, beq_iff_eq, decide_eq_true_eq] at h
      obtain ⟨⟨⟨⟨⟨hu, hv⟩, hk⟩, ha0⟩, hacap⟩, hrest⟩ := h
      subst hu
      subst hv
      subst hk
      simp only [List.foldr_cons]
      rw [List.mem_flatMap]
      refine ⟨a.toNat, ?_, ?_⟩
      · rw [List.mem_range]
        omega
      · rw [List.mem_map]
        refine ⟨fs, ih fs hrest, ?_⟩
        rw [Int.toNat_of_nonneg ha0]

/-- Every feasible flow is among the enumerated candidate flow dicts,
so a statement quantified over `allFlowDicts` covers all of them. -/
theorem feasible_mem_allFlowDicts {G : Graph} {f : FlowDict}
    (h : isFeasibleFlow G f = true) : f ∈ allFlowDicts G := by
  rw [isFeasibleFlow, Bool.and_eq_true] at h
  exact entriesMatch_mem G.edges f h.1

def tokA : MToken := ⟨10, 0⟩
def tokB : MToken := ⟨11, 0⟩
def tokC : MToken := ⟨12, 0⟩
def tokD : MToken := ⟨13, 0⟩
def tokG : MToken := ⟨14, 0⟩
def tokE : MToken := ⟨15, 0⟩

def exP1 : MPool := ⟨101, .v3, 1, tokA, tokB⟩
def exP2 : MPool := ⟨102, .v3, 2, tokB, tokD⟩
def exP3 : MPool := ⟨103, .v3, 3, tokD, tokE⟩
def exP4 : MPool := ⟨104, .v3, 4, tokD, tokG⟩
def exP5 : MPool := ⟨105, .v3, 5, tokG, tokE⟩
def exP6 : MPool := ⟨106, .v3, 6, tokA, tokC⟩
def exP7 : MPool := ⟨107, .v3, 7, tokC, tokD⟩

/-- A pool environment with unit prices, depth one start-token unit per
hop, and ample liquidity. -/
def exEnv : PoolEnv :=
  ⟨fun _ _ => some 1, fun _ _ => 100, fun _ _ _ => 1, fun _ _ _ => 0⟩

/-- Swap two units of token `A` (address 10) into token `E`
(address 15). -/
def exOrder : MOrder := .exactIn tokA tokE 2 2 (1 / 100)

/-- Four candidate routes sharing hops: two through `B, D`, two through
`C, D`, each pair splitting again at `D` (directly to `E`, or via `G`).
This merge-then-split shape is what breaks the decomposition count. -/
def exRoutes : List MRoute :=
  [[exP1, exP2, exP3], [exP1, exP2, exP4, exP5],
   [exP6, exP7, exP3], [exP6, exP7, exP4, exP5]]

/-- The unique feasible flow of the resulting network: one unit on
every edge. -/
def exFlows : FlowDict :=
  [((10, 11, 1), 1), ((11, 13, 2), 1), ((13, 15, 3), 1), ((13, 14, 4), 1),
   ((14, 15, 5), 1), ((10, 12, 6), 1), ((12, 13, 7), 1)]

/-- What `solve` returns on that flow: each of the four enumerated
paths is credited the minimum flow along it (one unit), so each route
gets fraction `1/2` of the two-unit demand. -/
def exSolution : MSolution :=
  [([exP1, exP2, exP3], 1 / 2), ([exP1, exP2, exP4, exP5], 1 / 2),
   ([exP6, exP7, exP3], 1 / 2), ([exP6, exP7, exP4, exP5], 1 / 2)]

/-- Claim C2 counterexample: on a merge-then-split flow network,
`exFlows` is feasible and is the only feasible flow dict (so any
solver satisfying the `min_cost_flow` contract returns it), yet `solve`
returns a Solution whose fractions sum to `2`, not `1`, and raises no
error: the decomposition double-counts flow and `solve` performs no
sum check (no `SolverInvariantViolation` exists in the code). -/
theorem C2_counterexample :
    isFeasibleFlow (buildGraph exEnv exOrder exRoutes) exFlows = true
    ∧ ((allFlowDicts (buildGraph exEnv exOrder exRoutes)).all
        fun f => !isFeasibleFlow (buildGraph exEnv exOrder exRoutes) f
          || f == exFlows) = true
    ∧ solveWith exEnv (fun _ => some exFlows) exOrder exRoutes = .ok exSolution
    ∧ sumFractions exSolution = 2
    ∧ (2 : ℚ) ≠ 1 := by
  refine ⟨?_, ?_, ?_, ?_, ?_⟩ <;> with_unfolding_all decide

/-- Normalizing a list of amounts by two nonzero factors scales its sum
accordingly. -/
theorem sumFractions_normalize (l : List (MRoute × ℤ)) (a b : ℚ)
    (ha : a ≠ 0) (hb : b ≠ 0) :
    sumFractions (l.map fun e => (e.1, (e.2 : ℚ) / a / b)) * (a * b)
      = (sumAmounts l : ℚ) := by
  induction l with
  | nil => simp [sumFractions, sumAmounts]
  | cons e l ih =>
    simp only [List.map_cons, sumFractions, sumAmounts, List.sum_cons] at ih ⊢
    rw [add_mul, ih]
    push_cast
    field_simp

/-- Claim C2 (amended): `solve` performs no sum check (the code has no
`SolverInvariantViolation`); each returned fraction is the decomposed
per-route amount divided by `ONE * demand`, so the fractions sum to the
total decomposed amount over the total demand, a quantity that can
differ from 1 when flow paths merge and re-split. -/
theorem C2_fraction_sum (env : PoolEnv) (mcf : Graph → Option FlowDict)
    (order : MOrder) (routes : List MRoute) (flows : FlowDict) (sol : MSolution)
    (hm : mcf (buildGraph env order routes) = some flows)
    (h : solveWith env mcf order routes = .ok sol)
    (hd : order.demand ≠ 0) :
    sumFractions sol * ((((10 ^ (order.startTok).decimals : ℕ)) : ℚ) * order.demand)
      = (sumAmounts (dictOf (convert_flows_to_routes flows
          (graphGetPair (buildGraph env order routes))
          (buildGraph env order routes).endAddr order.isReverse
          (flows.length + 1) (buildGraph env order routes).startAddr)) : ℚ) := by
  simp only [solveWith, hm, Except.ok.injEq] at h
  subst h
  exact sumFractions_normalize _ (((10 ^ (order.startTok).decimals : ℕ)) : ℚ)
    order.demand (by positivity) hd

/-- Witness for the amended claim C2 at the counterexample inputs. -/
theorem C2_witness :
    sumFractions exSolution
        * ((((10 ^ (exOrder.startTok).decimals : ℕ)) : ℚ) * exOrder.demand)
      = (sumAmounts (dictOf (convert_flows_to_routes exFlows
          (graphGetPair (buildGraph exEnv exOrder exRoutes))
          (buildGraph exEnv exOrder exRoutes).endAddr exOrder.isReverse
          (exFlows.length + 1) (buildGraph exEnv exOrder exRoutes).startAddr)) : ℚ) :=
  C2_fraction_sum exEnv (fun _ => some exFlows) exOrder exRoutes exFlows exSolution
    rfl (by with_unfolding_all decide) (by with_unfolding_all decide)

/-- Claim C3: whenever the flow network built by `solve` admits no
feasible flow (no assignment meets the total demand within the edge
capacities), any `min_cost_flow` implementation satisfying its contract
must signal infeasibility, and `solve` raises the solver failure; it
never returns a partial Solution. -/
theorem C3_infeasible (env : PoolEnv) (mcf : Graph → Option FlowDict)
    (order : MOrder) (routes : List MRoute)
    (hcontract : ∀ f, mcf (buildGraph env order routes) = some f →
      isFeasibleFlow (buildGraph env order routes) f = true)
    (hinf : ∀ f, isFeasibleFlow (buildGraph env order routes) f = false) :
    solveWith env mcf order routes
      = .error "Solver failure: no flow satisfies all node demands" := by
  rcases hm : mcf (buildGraph env order routes) with _ | f
  · simp only [solveWith, hm]
  · have hgood := hcontract f hm
    rw [hinf f] at hgood
    exact absurd hgood (by simp)

def c3Env : PoolEnv :=
  ⟨fun _ _ => some 1, fun _ _ => 100, fun _ _ _ => 1, fun _ _ _ => 0⟩

def c3Order : MOrder := .exactIn ⟨20, 0⟩ ⟨21, 0⟩ 2 2 (1 / 100)

/-- Witness for claim C3: with no candidate routes the network has no
edges but still demands two start-token units, so no flow dict is
feasible and solve fails. -/
theorem C3_witness :
    solveWith c3Env (fun _ => none) c3Order []
      = .error "Solver failure: no flow satisfies all node demands" :=
  C3_infeasible c3Env (fun _ => none) c3Order []
    (fun _ hnc => Option.noConfusion hnc)
    (fun f => by
      match f with
      | [] => with_unfolding_all decide
      | ⟨⟨u, v, k⟩, a⟩ :: fs =>
        rw [isFeasibleFlow,
          show (buildGraph c3Env c3Order []).edges = [] from rfl]
        rfl)

/-! ### Plan compilation (`convert_solution_to_plan`, C4) -/

/-- `utils.get_total_fee(route)`: the cumulative fee ratio
`1 - prod (1 - pair.fee / Fee.MAXIMUM)` over the route's hops.
(Present in the source but never called by the plan compiler.) -/
def get_total_fee (route : MRoute) : ℚ :=
  1 - (route.map fun pair => 1 - (pair.fee : ℚ) / 1000000).prod

/-- `v3.Factory.encode_route(token, *route)`: the start token address,
then each pool's fee followed by the next token address. -/
def v3_encode_route : MToken → MRoute → List Nat
  | token, [] => [token.address]
  | token, pool :: rest =>
    token.address :: pool.fee :: v3_encode_route (pool.other token) rest

/-- `Constants.MSG_SENDER`. -/
def MSG_SENDER : Nat := 1

/-- The argument values of one emitted swap command
(`plan.v3_swap_exact_in(...)` etc., solver.py:137-173): `amountA` is
the second builder argument (amountIn for exact-in, amountOut for
exact-out), `amountB` the third (amountOutMin / amountInMax). -/
structure SwapStep where
  opcode : Nat
  recipient : Nat
  amountA : ℤ
  amountB : ℤ
  path : List Nat
  payer_is_user : Bool
deriving DecidableEq, Repr

/-- A step of the produced plan: the optional leading permit command or
an emitted swap. -/
inductive PlanStep
  | permitStep
  | swap (s : SwapStep)
deriving DecidableEq, Repr

/-- One iteration of the route loop of `convert_solution_to_plan`
(solver.py:132-177): scale the totals by the flow ratio, emit the v3
builder call when all hops are v3 pools (packing the encoded route
through `encode_path`, as the `_V3_EncodePathInput` validator does), the
v2 one when all are v2 pairs, and fail otherwise (`Invalid route`).
The v2 route path encoder is a parameter: `types.BaseIndex` declares
`encode_route` abstract and `v2.py` does not implement it. -/
def emitRoute (v2enc : MToken → MRoute → List Nat) (order : MOrder) (receiver : Nat)
    (route : MRoute) (flow_ratio : ℚ) : Except String SwapStep :=
  let oneHave : Nat := 10 ^ (order.haveTok).decimals
  let oneWant : Nat := 10 ^ (order.wantTok).decimals
  let amount_in_route := order.total_amount_in * flow_ratio
  let amount_out_route := order.total_amount_out * flow_ratio
  if route.all fun p => p.ver == PoolVer.v3 then
    let pl := v3_encode_route order.haveTok route
    let packed := encode_packed (pathTypes pl true) pl
    if order.isExactIn then
      .ok ⟨0x00, receiver, pyInt (amount_in_route * (oneHave : ℚ)),
        pyInt (amount_out_route * (oneWant : ℚ)), packed, true⟩
    else
      .ok ⟨0x01, receiver, pyInt (amount_out_route * (oneWant : ℚ)),
        pyInt (amount_in_route * (oneHave : ℚ)), packed, true⟩
  else if route.all fun p => p.ver == PoolVer.v2 then
    if order.isExactIn then
      .ok ⟨0x08, receiver, pyInt (amount_in_route * (oneHave : ℚ)),
        pyInt (amount_out_route * (oneWant : ℚ)), v2enc order.haveTok route, true⟩
    else
      .ok ⟨0x09, receiver, pyInt (amount_out_route * (oneWant : ℚ)),
        pyInt (amount_in_route * (oneHave : ℚ)), v2enc order.haveTok route, true⟩
  else .error "Invalid route"

/-- `convert_solution_to_plan(order, solution, permit_step, receiver)`
(solver.py:109-179): optional permit step first, then one swap command
per route of the Solution, with `payer_is_user = True` and the
`MSG_SENDER` sentinel as default receiver. -/
def convert_solution_to_plan (v2enc : MToken → MRoute → List Nat) (order : MOrder)
    (solution : MSolution) (permit_step : Bool) (receiver : Option Nat) :
    Except String (List PlanStep) := do
  let steps ← solution.mapM fun e =>
    (emitRoute v2enc order (receiver.getD MSG_SENDER) e.1 e.2).map PlanStep.swap
  pure ((if permit_step then [PlanStep.permitStep] else []) ++ steps)

/-- The input-side amount argument of an emitted swap step (`amountIn`
for exact-in, `amountInMax` for exact-out). -/
def inputAmountArg (order : MOrder) (st : SwapStep) : ℤ :=
  if order.isExactIn then st.amountA else st.amountB

/-- The output-side amount argument of an emitted swap step
(`amountOutMin` for exact-in, `amountOut` for exact-out). -/
def outputAmountArg (order : MOrder) (st : SwapStep) : ℤ :=
  if order.isExactIn then st.amountB else st.amountA

/-- Claim C4 (amended): every emitted swap command carries an
input-side amount of `total_amount_in * flow_ratio` and an output-side
amount of `total_amount_out * flow_ratio`, both truncated to raw token
units; no fee discount is applied to the output side
(`get_total_fee` is never called by the compiler). -/
theorem C4_route_amounts (v2enc : MToken → MRoute → List Nat) (order : MOrder)
    (receiver : Nat) (route : MRoute) (ratio : ℚ) (st : SwapStep)
    (h : emitRoute v2enc order receiver route ratio = .ok st) :
    inputAmountArg order st
      = pyInt (order.total_amount_in * ratio * (((10 ^ (order.haveTok).decimals : ℕ)) : ℚ))
    ∧ outputAmountArg order st
      = pyInt (order.total_amount_out * ratio * (((10 ^ (order.wantTok).decimals : ℕ)) : ℚ)) := by
  simp only [emitRoute] at h
  split at h
  · split at h
    · rename_i hin
      rw [Except.ok.injEq] at h
      subst h
      simp [inputAmountArg, outputAmountArg, hin]
    · rename_i hin
      rw [Except.ok.injEq] at h
      subst h
      simp only [Bool.not_eq_true] at hin
      simp [inputAmountArg, outputAmountArg, hin]
  · split at h
    · split at h
      · rename_i hin
        rw [Except.ok.injEq] at h
        subst h
        simp [inputAmountArg, outputAmountArg, hin]
      · rename_i hin
        rw [Except.ok.injEq] at h
        subst h
        simp only [Bool.not_eq_true] at hin
        simp [inputAmountArg, outputAmountArg, hin]
    · exact absurd h (by simp)

def c4TokH : MToken := ⟨1, 0⟩
def c4TokW : MToken := ⟨2, 0⟩

/-- A single v3 pool with the 0.3% fee tier (3000 parts per million). -/
def c4Pool : MPool := ⟨201, .v3, 3000, c4TokH, c4TokW⟩

/-- Exact-in order: swap 1000 have-token units against at least 1000
want-token units. -/
def c4Order : MOrder := .exactIn c4TokH c4TokW 1000 1000 (1 / 100)

def c4Route : MRoute := [c4Pool]

/-- The swap step the compiler emits for `c4Route` at flow ratio 1. -/
def c4Step : SwapStep :=
  ⟨0x00, MSG_SENDER, 1000, 1000,
    encode_packed (pathTypes (v3_encode_route c4TokH c4Route) true)
      (v3_encode_route c4TokH c4Route), true⟩

/-- Claim C4 counterexample: compiling a one-route Solution through a
0.3%-fee v3 pool emits `amountOutMin = 1000` (the undiscounted
`total_amount_out * fraction`), while the claim's fee-discounted value
`total_amount_out * fraction * (1 - get_total_fee(route))` truncates to
997; the code applies no fee discount. -/
theorem C4_counterexample :
    convert_solution_to_plan (fun _ _ => []) c4Order [(c4Route, 1)] false none
      = .ok [.swap c4Step]
    ∧ outputAmountArg c4Order c4Step = 1000
    ∧ pyInt (c4Order.total_amount_out * 1 * (((10 ^ (c4Order.wantTok).decimals : ℕ)) : ℚ)
        * (1 - get_total_fee c4Route)) = 997
    ∧ (1000 : ℤ) ≠ 997 := by
  refine ⟨?_, ?_, ?_, ?_⟩ <;> with_unfolding_all decide

/-- Witness for the amended claim C4 at the counterexample inputs. -/
theorem C4_witness :
    inputAmountArg c4Order c4Step
      = pyInt (c4Order.total_amount_in * 1 * (((10 ^ (c4Order.haveTok).decimals : ℕ)) : ℚ))
    ∧ outputAmountArg c4Order c4Step
      = pyInt (c4Order.total_amount_out * 1 * (((10 ^ (c4Order.wantTok).decimals : ℕ)) : ℚ)) :=
  C4_route_amounts (fun _ _ => []) c4Order MSG_SENDER c4Route 1 c4Step
    (by with_unfolding_all decide)

end UniswapSDK
